import Mathlib

/-!
# Root separation and Newton refinement

A shallow embedding of `V_M_6.1_new.cpp`.  The program scans an interval `[a, b]` in steps
of `h`, and refines every sub-interval whose endpoint values have a non-positive product
with Newton's method.

Modelling conventions.

* `double` is read as an exact ordered field `α` (the real numbers for the analytic
  statements).  Rounding, infinities and NaN are outside the model, with one exception:
  the sum `x + h` that drives the scan loop.  `machine_scan` takes that sum as a
  parameter `add`, so that what is proved of the scan's control flow holds of a rounded
  sum too; `exact_add` is the exact sum and `absorbing_add` a sum that drops a summand
  too small to change a `double`.  `machine_scan` also records the arguments of the
  scan's own calls of `f`.  Likewise the `while` loop of `newton_method` is given a second
  time over an arbitrary `MachineArith`, whose quotient and comparisons are total
  operations on a carrier that may hold NaN.
* The two `<cmath>` functions the program calls, `pow` and `log`, are supplied through a
  record `CMath α`; `realMath` interprets them as the real power and the natural logarithm.
* The global `int calc_count` is threaded explicitly: every evaluator takes the current
  counter and returns the new one next to its value.  The counter is a 32-bit signed
  integer: `calc_count++` is `int_wrap (calc_count + 1)`, which steps from `2147483647`
  to `-2147483648` as the two's-complement machines the program runs on do.
* A quotient whose denominator is zero has no value in exact arithmetic.  Inside a Newton
  step it stops the run with `Halt.division_by_zero`; in the convergence estimate, which
  does not feed back into control flow, it is recorded as `none`.
* The `while` and `for` loops carry a fuel argument that bounds the number of body
  executions; running out of it is reported as `Halt.newton_fuel` or `Halt.scan_fuel`.
* Console input, output formatting and the wall-clock timer are not modelled; what the
  program prints for a root is collected in a `Report`.
-/

namespace RootFinder

variable {α : Type} [LinearOrderedField α]

/-- The functions of `<cmath>` used by the program. -/
structure CMath (α : Type) where
  pow : α → α → α
  log : α → α

/-- Ways in which a run leaves the exact-arithmetic model or exhausts its fuel. -/
inductive Halt where
  | division_by_zero
  | newton_fuel
  | scan_fuel
  deriving DecidableEq

/-- The value an `int` holds after a computation with exact result `z`: the
representative of `z` modulo `2 ^ 32` in `[-2 ^ 31, 2 ^ 31)`. -/
def int_wrap (z : ℤ) : ℤ := (z + 2147483648) % 4294967296 - 2147483648

/-- Function `f` of the source (lines 10-13): bumps the counter, returns
`0.5 * pow(x, 2) - 10 + pow(2, -x)`. -/
def f (M : CMath α) (x : α) (calc_count : ℤ) : α × ℤ :=
  (0.5 * M.pow x 2 - 10 + M.pow 2 (-x), int_wrap (calc_count + 1))

/-- Function `f_prime` of the source (lines 15-18): bumps the counter, returns
`x - pow(2, -x) * log(2)`. -/
def f_prime (M : CMath α) (x : α) (calc_count : ℤ) : α × ℤ :=
  (x - M.pow 2 (-x) * M.log 2, int_wrap (calc_count + 1))

/-- Function `f_double_prime` of the source (lines 20-23): bumps the counter, returns
`1 + pow(2, -x) * log(2) * log(2)`. -/
def f_double_prime (M : CMath α) (x : α) (calc_count : ℤ) : α × ℤ :=
  (1 + M.pow 2 (-x) * M.log 2 * M.log 2, int_wrap (calc_count + 1))

/-- Exact division: defined only for a nonzero denominator. -/
def checked_div (p q : α) : Except Halt α :=
  if q = 0 then .error .division_by_zero else .ok (p / q)

/-- The local variables of `newton_method` that live across loop iterations, together
with the global counter. -/
structure NewtonState (α : Type) where
  x_prev_prev : α
  x_prev : α
  x_next : α
  fx_next : α
  n : ℕ
  calc_count : ℤ

/-- What `newton_method` hands back: the returned root, the two reference parameters
`n` and `convergence`, and the counter after the call. -/
structure NewtonResult (α : Type) where
  root : α
  n : ℕ
  convergence : Option α
  calc_count : ℤ

/-- Lines 26-31: the first Newton step from `x` and the evaluation of `f` at it. -/
def newton_init (M : CMath α) (x : α) (calc_count : ℤ) : Except Halt (NewtonState α) :=
  let x_prev := x
  let fx := f M x calc_count
  let dfx := f_prime M x fx.2
  (checked_div fx.1 dfx.1).map fun q =>
    let x_next := x - q
    let x_prev_prev := x
    let fx_next := f M x_next dfx.2
    { x_prev_prev := x_prev_prev, x_prev := x_prev, x_next := x_next,
      fx_next := fx_next.1, n := 1, calc_count := fx_next.2 }

/-- Line 32: the condition of the `while` loop. -/
def newton_continue (eps1 eps2 : α) (s : NewtonState α) : Prop :=
  |s.x_next - s.x_prev| ≥ eps1 ∧ |s.fx_next| ≥ eps2

instance (eps1 eps2 : α) (s : NewtonState α) : Decidable (newton_continue eps1 eps2 s) := by
  unfold newton_continue
  exact inferInstance

/-- Lines 33-39: one execution of the body of the `while` loop. -/
def newton_step (M : CMath α) (s : NewtonState α) : Except Halt (NewtonState α) :=
  let x_prev_prev := s.x_prev
  let x_prev := s.x_next
  let fx_prev := s.fx_next
  let f_prime_x_prev := f_prime M x_prev s.calc_count
  (checked_div fx_prev f_prime_x_prev.1).map fun q =>
    let x_next := x_prev - q
    let fx_next := f M x_next f_prime_x_prev.2
    { x_prev_prev := x_prev_prev, x_prev := x_prev, x_next := x_next,
      fx_next := fx_next.1, n := s.n + 1, calc_count := fx_next.2 }

/-- Lines 32-40: the `while` loop, allowed at most `fuel` executions of its body. -/
def newton_loop (M : CMath α) (eps1 eps2 : α) :
    ℕ → NewtonState α → Except Halt (NewtonState α)
  | 0, s => if newton_continue eps1 eps2 s then .error .newton_fuel else .ok s
  | fuel + 1, s =>
    if newton_continue eps1 eps2 s then
      (newton_step M s).bind (newton_loop M eps1 eps2 fuel)
    else .ok s

/-- Lines 26-40: the state in which the `while` loop of `newton_method` is left. -/
def newton_final (M : CMath α) (fuel : ℕ) (x eps1 eps2 : α) (calc_count : ℤ) :
    Except Halt (NewtonState α) :=
  (newton_init M x calc_count).bind (newton_loop M eps1 eps2 fuel)

/-- Line 42: `abs((x_next - x_prev) / pow(abs(x_prev - x_prev_prev), 2))`, with `none`
for a zero denominator. -/
def convergence_estimate (M : CMath α) (s : NewtonState α) : Option α :=
  if M.pow |s.x_prev - s.x_prev_prev| 2 = 0 then none
  else some |(s.x_next - s.x_prev) / M.pow |s.x_prev - s.x_prev_prev| 2|

/-- Function `newton_method` of the source (lines 25-44). -/
def newton_method (M : CMath α) (fuel : ℕ) (x eps1 eps2 : α) (calc_count : ℤ) :
    Except Halt (NewtonResult α) :=
  (newton_final M fuel x eps1 eps2 calc_count).map fun s =>
    { root := s.x_next, n := s.n, convergence := convergence_estimate M s,
      calc_count := s.calc_count }

/-- The values printed for one root (lines 76-82), the elapsed time apart. -/
structure Report (α : Type) where
  root : α
  accuracy : α
  f_root : α
  n : ℕ
  calc_count : ℤ
  convergence : Option α

/-- The variables of `main` that live across iterations of the scan loop, together with
the global counter and the reports printed so far. -/
structure ScanState (α : Type) where
  x : α
  prev_f : α
  calc_count : ℤ
  out : List (Report α)

/-- Lines 64-71: the Fourier test at the left endpoint `x` selects the starting point. -/
def initial_guess (M : CMath α) (x x2 prev_f : α) (calc_count : ℤ) : α × ℤ :=
  let curr_f_double_prime := f_double_prime M x calc_count
  (if prev_f * curr_f_double_prime.1 > 0 then x else x2, curr_f_double_prime.2)

/-- Lines 64-83: the block run for a sub-interval `[x, x2]` that passed the test of
line 63.  It returns the report it prints and the counter it leaves. -/
def handle_bracket (M : CMath α) (nfuel : ℕ) (eps1 eps2 x x2 prev_f : α)
    (calc_count : ℤ) : Except Halt (Report α × ℤ) :=
  let x0 := initial_guess M x x2 prev_f calc_count
  (newton_method M nfuel x0.1 eps1 eps2 x0.2).map fun r =>
    let f_root := f M r.root r.calc_count
    ({ root := r.root, accuracy := |r.root - x0.1|, f_root := f_root.1, n := r.n,
       calc_count := f_root.2, convergence := r.convergence }, f_root.2)

/-- Lines 61-85 followed by the increment `x += h`: one iteration of the scan loop. -/
def scan_body (M : CMath α) (nfuel : ℕ) (h b eps1 eps2 : α) (s : ScanState α) :
    Except Halt (ScanState α) :=
  let x2 := min (s.x + h) b
  let curr_f := f M x2 s.calc_count
  if s.prev_f * curr_f.1 ≤ 0 then
    (handle_bracket M nfuel eps1 eps2 s.x x2 s.prev_f curr_f.2).map fun r =>
      { x := s.x + h, prev_f := curr_f.1, calc_count := r.2, out := s.out ++ [r.1] }
  else
    .ok { x := s.x + h, prev_f := curr_f.1, calc_count := curr_f.2, out := s.out }

/-- Lines 60-86: the `for` loop, allowed at most `fuel` executions of its body. -/
def scan_loop (M : CMath α) (nfuel : ℕ) (h b eps1 eps2 : α) :
    ℕ → ScanState α → Except Halt (ScanState α)
  | 0, s => if s.x ≤ b then .error .scan_fuel else .ok s
  | fuel + 1, s =>
    if s.x ≤ b then
      (scan_body M nfuel h b eps1 eps2 s).bind (scan_loop M nfuel h b eps1 eps2 fuel)
    else .ok s

/-- The body of the scan loop executed `k` times in a row, the loop condition not
consulted. -/
def scan_after (M : CMath α) (nfuel : ℕ) (h b eps1 eps2 : α) :
    ℕ → ScanState α → Except Halt (ScanState α)
  | 0, s => .ok s
  | k + 1, s =>
    (scan_body M nfuel h b eps1 eps2 s).bind (scan_after M nfuel h b eps1 eps2 k)

/-- Line 59: the state in which the scan loop is entered. -/
def scan_init (M : CMath α) (a : α) (calc_count : ℤ) : ScanState α :=
  let prev_f := f M a calc_count
  { x := a, prev_f := prev_f.1, calc_count := prev_f.2, out := [] }

/-- Lines 59-86 with the step `h` and the initial counter as parameters. -/
def scan (M : CMath α) (sfuel nfuel : ℕ) (h a b eps1 eps2 : α) (calc_count : ℤ) :
    Except Halt (ScanState α) :=
  scan_loop M nfuel h b eps1 eps2 sfuel (scan_init M a calc_count)

/-- Function `main` of the source: `h = 7.0`, the counter starts at `0`. -/
def main (M : CMath α) (sfuel nfuel : ℕ) (a b eps1 eps2 : α) :
    Except Halt (ScanState α) :=
  scan M sfuel nfuel 7 a b eps1 eps2 0

/-- The real-number reading of `pow` and `log`. -/
noncomputable def realMath : CMath ℝ where
  pow := fun x y => x ^ y
  log := Real.log

/-- The number `f` returns at `x`. -/
def f_value (M : CMath α) (x : α) : α := (f M x 0).1

/-- The number `f_prime` returns at `x`. -/
def f_prime_value (M : CMath α) (x : α) : α := (f_prime M x 0).1

/-- The number `f_double_prime` returns at `x`. -/
def f_double_prime_value (M : CMath α) (x : α) : α := (f_double_prime M x 0).1

/-- The Newton map `x - f(x) / f_prime(x)`. -/
def newton_map (M : CMath α) (x : α) : α := x - f_value M x / f_prime_value M x

/-- The report printed for the Newton result `r` obtained from the starting point `x0`:
the accuracy is `|root - x0|`, and `f(root)` is one more evaluation. -/
def report_of (M : CMath α) (x0 : α) (r : NewtonResult α) : Report α :=
  { root := r.root, accuracy := |r.root - x0|, f_root := f_value M r.root, n := r.n,
    calc_count := int_wrap (r.calc_count + 1), convergence := r.convergence }

/-- The scan state after an iteration over a sub-interval with right endpoint `x2` in
which the Newton solve from `x0` returned `r`. -/
def after_solve (M : CMath α) (h x2 x0 : α) (s : ScanState α) (r : NewtonResult α) :
    ScanState α :=
  { x := s.x + h, prev_f := f_value M x2, calc_count := int_wrap (r.calc_count + 1),
    out := s.out ++ [report_of M x0 r] }

/-- The scan state after an iteration over a sub-interval with right endpoint `x2` in
which no Newton solve was started: only `f(x2)` has been evaluated. -/
def after_skip (M : CMath α) (h x2 : α) (s : ScanState α) : ScanState α :=
  { x := s.x + h, prev_f := f_value M x2, calc_count := int_wrap (s.calc_count + 1),
    out := s.out }

/-- The region in which the real Newton iteration started at `7` stays: the newest
iterate lies in `[4, 5]`, `fx_next` is the value of `f` there and is not negative, and it
is bounded by the square of the last step unless that step was at least `1` long. -/
def in_basin (s : NewtonState ℝ) : Prop :=
  4 ≤ s.x_next ∧ s.x_next ≤ 5 ∧ s.fx_next = f_value realMath s.x_next ∧ 0 ≤ s.fx_next ∧
    (s.fx_next ≤ 0.54 * (s.x_next - s.x_prev) ^ 2 ∨ 1 ≤ |s.x_next - s.x_prev|)

/-- The same Newton state with the counter moved by `d`. -/
def NewtonState.shift (d : ℤ) (s : NewtonState α) : NewtonState α :=
  { s with calc_count := int_wrap (s.calc_count + d) }

/-- The part of a Newton result that does not mention the counter. -/
def NewtonResult.answer (r : NewtonResult α) : α × ℕ × Option α :=
  (r.root, r.n, r.convergence)

/-- The `k`-th Newton iterate `x_k`: the Newton map applied `k` times to `x0`. -/
def newton_iterate (M : CMath α) (x0 : α) (k : ℕ) : α := (newton_map M)^[k] x0

/-- The loop condition read on the iterates: `|x_k - x_(k-1)| >= eps1` and
`|f(x_k)| >= eps2`. -/
def continue_at (M : CMath α) (x0 eps1 eps2 : α) (k : ℕ) : Prop :=
  |newton_iterate M x0 k - newton_iterate M x0 (k - 1)| ≥ eps1 ∧
    |f_value M (newton_iterate M x0 k)| ≥ eps2

/-- The state of `newton_method`, started at `x0` with counter `c`, in which `x_next` is
the `k`-th iterate (`k >= 1`): the two older iterates, `f` at the newest one, the
iteration count `k` and the counter after `2 * k + 1` evaluations. -/
def iterate_state (M : CMath α) (x0 : α) (c : ℤ) (k : ℕ) : NewtonState α :=
  { x_prev_prev := newton_iterate M x0 (k - 2), x_prev := newton_iterate M x0 (k - 1),
    x_next := newton_iterate M x0 k, fx_next := f_value M (newton_iterate M x0 k),
    n := k, calc_count := int_wrap (c + (2 * k + 1)) }

/-- The scan state together with the arguments of the calls of `f` made by the scan
itself (line 59 and line 62), in the order they were made.  The list is no program
variable: it records what the program did. -/
structure ScanTrace (α : Type) where
  state : ScanState α
  evals : List α

/-- Line 59 with its call of `f` recorded. -/
def traced_scan_init (M : CMath α) (a : α) (calc_count : ℤ) : ScanTrace α :=
  { state := scan_init M a calc_count, evals := [a] }

/-- Lines 61-85 followed by the increment `x += h`, with the sum `x + h` as the machine
computes it supplied as `add` and the call `f(x2)` recorded.  Both `x + h` on line 61 and
`x += h` are the same machine sum of the same operands. -/
def machine_scan_body (add : α → α → α) (M : CMath α) (nfuel : ℕ) (h b eps1 eps2 : α)
    (t : ScanTrace α) : Except Halt (ScanTrace α) :=
  let x2 := min (add t.state.x h) b
  let curr_f := f M x2 t.state.calc_count
  if t.state.prev_f * curr_f.1 ≤ 0 then
    (handle_bracket M nfuel eps1 eps2 t.state.x x2 t.state.prev_f curr_f.2).map fun r =>
      { state := { x := add t.state.x h, prev_f := curr_f.1, calc_count := r.2,
                   out := t.state.out ++ [r.1] },
        evals := t.evals ++ [x2] }
  else
    .ok { state := { x := add t.state.x h, prev_f := curr_f.1, calc_count := curr_f.2,
                     out := t.state.out },
          evals := t.evals ++ [x2] }

/-- Lines 60-86 with the machine sum `add`, allowed at most `fuel` executions of the
body. -/
def machine_scan_loop (add : α → α → α) (M : CMath α) (nfuel : ℕ) (h b eps1 eps2 : α) :
    ℕ → ScanTrace α → Except Halt (ScanTrace α)
  | 0, t => if t.state.x ≤ b then .error .scan_fuel else .ok t
  | fuel + 1, t =>
    if t.state.x ≤ b then
      (machine_scan_body add M nfuel h b eps1 eps2 t).bind
        (machine_scan_loop add M nfuel h b eps1 eps2 fuel)
    else .ok t

/-- The scan loop with the machine sum `add`, stopped after at most `k` executions of its
body: the trace at a loop head of the run. -/
def machine_scan_upto (add : α → α → α) (M : CMath α) (nfuel : ℕ) (h b eps1 eps2 : α) :
    ℕ → ScanTrace α → Except Halt (ScanTrace α)
  | 0, t => .ok t
  | k + 1, t =>
    if t.state.x ≤ b then
      (machine_scan_body add M nfuel h b eps1 eps2 t).bind
        (machine_scan_upto add M nfuel h b eps1 eps2 k)
    else .ok t

/-- Lines 59-86 with the machine sum `add`. -/
def machine_scan (add : α → α → α) (M : CMath α) (sfuel nfuel : ℕ) (h a b eps1 eps2 : α)
    (calc_count : ℤ) : Except Halt (ScanTrace α) :=
  machine_scan_loop add M nfuel h b eps1 eps2 sfuel (traced_scan_init M a calc_count)

/-- The exact sum. -/
def exact_add (x y : α) : α := x + y

/-- A sum that loses a small summand the way a `double` sum does: for a double `x` and
`|y| <= |x| / 2 ^ 54` the summand `y` is at most half a unit in the last place of `x`, and
the sum rounded to nearest (ties to even) is `x`.  Every other sum is taken exact. -/
def absorbing_add (x y : α) : α := if |y| * 2 ^ 54 ≤ |x| then x else x + y

/-- The traced state after an iteration in which the Newton solve from `x0` returned
`r`. -/
def machine_after_solve (add : α → α → α) (M : CMath α) (h x2 x0 : α) (t : ScanTrace α)
    (r : NewtonResult α) : ScanTrace α :=
  { state := { x := add t.state.x h, prev_f := f_value M x2,
               calc_count := int_wrap (r.calc_count + 1),
               out := t.state.out ++ [report_of M x0 r] },
    evals := t.evals ++ [x2] }

/-- The traced state after an iteration in which no Newton solve was started. -/
def machine_after_skip (add : α → α → α) (M : CMath α) (h x2 : α) (t : ScanTrace α) :
    ScanTrace α :=
  { state := { x := add t.state.x h, prev_f := f_value M x2,
               calc_count := int_wrap (t.state.calc_count + 1), out := t.state.out },
    evals := t.evals ++ [x2] }

/-- The evaluations accounted for by the reports printed: `2 * n + 3` for each. -/
def solve_evaluations (out : List (Report α)) : ℤ :=
  (out.map fun rep => 2 * (rep.n : ℤ) + 3).sum

/-- The `double` operations `newton_method` performs, on a carrier `V` that may hold
rounded values, infinities and NaN: the difference, the quotient (which has a value for
every denominator), `abs`, the comparisons `>=` and `<` (both false as soon as an operand
is NaN), and the evaluators `f` and `f_prime` as the machine computes them. -/
structure MachineArith (V : Type) where
  sub : V → V → V
  div : V → V → V
  abs : V → V
  ge : V → V → Bool
  lt : V → V → Bool
  f : V → V
  f_prime : V → V

/-- Lines 26-31 in machine arithmetic: the first Newton step from `x` and the evaluation
of `f` at it; three evaluator calls. -/
def machine_newton_init {V : Type} (m : MachineArith V) (x : V) (calc_count : ℤ) :
    NewtonState V :=
  let x_prev := x
  let x_next := m.sub x (m.div (m.f x) (m.f_prime x))
  let x_prev_prev := x
  let fx_next := m.f x_next
  { x_prev_prev := x_prev_prev, x_prev := x_prev, x_next := x_next, fx_next := fx_next,
    n := 1, calc_count := int_wrap (int_wrap (int_wrap (calc_count + 1) + 1) + 1) }

/-- Line 32 in machine arithmetic: the condition of the `while` loop. -/
def machine_newton_continue {V : Type} (m : MachineArith V) (eps1 eps2 : V)
    (s : NewtonState V) : Bool :=
  m.ge (m.abs (m.sub s.x_next s.x_prev)) eps1 && m.ge (m.abs s.fx_next) eps2

/-- Lines 33-39 in machine arithmetic: one execution of the body of the `while` loop; two
evaluator calls. -/
def machine_newton_step {V : Type} (m : MachineArith V) (s : NewtonState V) :
    NewtonState V :=
  let x_prev_prev := s.x_prev
  let x_prev := s.x_next
  let fx_prev := s.fx_next
  let f_prime_x_prev := m.f_prime x_prev
  let x_next := m.sub x_prev (m.div fx_prev f_prime_x_prev)
  let fx_next := m.f x_next
  { x_prev_prev := x_prev_prev, x_prev := x_prev, x_next := x_next, fx_next := fx_next,
    n := s.n + 1, calc_count := int_wrap (int_wrap (s.calc_count + 1) + 1) }

/-- Lines 32-40 in machine arithmetic, allowed at most `fuel` executions of the body. -/
def machine_newton_loop {V : Type} (m : MachineArith V) (eps1 eps2 : V) :
    ℕ → NewtonState V → Except Halt (NewtonState V)
  | 0, s => if machine_newton_continue m eps1 eps2 s then .error .newton_fuel else .ok s
  | fuel + 1, s =>
    if machine_newton_continue m eps1 eps2 s then
      machine_newton_loop m eps1 eps2 fuel (machine_newton_step m s)
    else .ok s

/-- Lines 26-40 in machine arithmetic: the state in which the `while` loop is left; its
`x_next` is what line 43 returns. -/
def machine_newton_final {V : Type} (m : MachineArith V) (fuel : ℕ) (x eps1 eps2 : V)
    (calc_count : ℤ) : Except Halt (NewtonState V) :=
  machine_newton_loop m eps1 eps2 fuel (machine_newton_init m x calc_count)

/-- Exact arithmetic as a machine arithmetic; the quotient by zero, which exact
arithmetic does not have, is given the value `0`. -/
def exact_machine (M : CMath α) : MachineArith α :=
  { sub := fun x y => x - y, div := fun x y => x / y, abs := fun x => |x|,
    ge := fun x y => decide (x ≥ y), lt := fun x y => decide (x < y),
    f := f_value M, f_prime := f_prime_value M }

/-! ## Elementary facts about the evaluators -/

@[simp] theorem f_fst (M : CMath α) (x : α) (c : ℤ) :
    (f M x c).1 = 0.5 * M.pow x 2 - 10 + M.pow 2 (-x) := rfl

theorem int_wrap_add_left (a b : ℤ) : int_wrap (int_wrap a + b) = int_wrap (a + b) := by
  unfold int_wrap
  omega

theorem int_wrap_of_range (a : ℤ) (h1 : -2147483648 ≤ a) (h2 : a ≤ 2147483647) :
    int_wrap a = a := by
  unfold int_wrap
  omega

theorem int_wrap_range (a : ℤ) : -2147483648 ≤ int_wrap a ∧ int_wrap a ≤ 2147483647 := by
  unfold int_wrap
  omega

@[simp] theorem f_snd (M : CMath α) (x : α) (c : ℤ) : (f M x c).2 = int_wrap (c + 1) := rfl

@[simp] theorem f_prime_fst (M : CMath α) (x : α) (c : ℤ) :
    (f_prime M x c).1 = x - M.pow 2 (-x) * M.log 2 := rfl

@[simp] theorem f_prime_snd (M : CMath α) (x : α) (c : ℤ) :
    (f_prime M x c).2 = int_wrap (c + 1) := rfl

@[simp] theorem f_double_prime_fst (M : CMath α) (x : α) (c : ℤ) :
    (f_double_prime M x c).1 = 1 + M.pow 2 (-x) * M.log 2 * M.log 2 := rfl

@[simp] theorem f_double_prime_snd (M : CMath α) (x : α) (c : ℤ) :
    (f_double_prime M x c).2 = int_wrap (c + 1) := rfl

theorem realMath_pow (x y : ℝ) : realMath.pow x y = x ^ y := rfl

theorem realMath_log (x : ℝ) : realMath.log x = Real.log x := rfl

theorem f_real (x : ℝ) (c : ℤ) :
    (f realMath x c).1 = 0.5 * x ^ 2 - 10 + (2 : ℝ) ^ (-x) := by
  simp [realMath_pow, Real.rpow_two]

theorem f_prime_real (x : ℝ) (c : ℤ) :
    (f_prime realMath x c).1 = x - (2 : ℝ) ^ (-x) * Real.log 2 := by
  simp [realMath_pow, realMath_log]

theorem f_double_prime_real (x : ℝ) (c : ℤ) :
    (f_double_prime realMath x c).1 = 1 + (2 : ℝ) ^ (-x) * Real.log 2 ^ 2 := by
  simp [realMath_pow, realMath_log]
  ring

/-- C3, as the code has it: a call to `f`, `f_prime` or `f_double_prime` at a real `x`
with an `int` counter `c` below `INT_MAX = 2147483647` leaves the counter at `c + 1`,
which is not below `c`; the value returned is the closed formula of that function and is
the same for every counter `c'`.  A call with the counter at `INT_MAX` leaves it at
`-2147483648`. -/
theorem evaluator_call_counts_once (x : ℝ) (c : ℤ) (hlo : -2147483648 ≤ c)
    (hhi : c < 2147483647) :
    ((f realMath x c).2 = c + 1 ∧ (f_prime realMath x c).2 = c + 1 ∧
      (f_double_prime realMath x c).2 = c + 1) ∧
    (c ≤ (f realMath x c).2 ∧ c ≤ (f_prime realMath x c).2 ∧
      c ≤ (f_double_prime realMath x c).2) ∧
    ((f realMath x c).1 = 0.5 * x ^ 2 - 10 + (2 : ℝ) ^ (-x) ∧
      (f_prime realMath x c).1 = x - (2 : ℝ) ^ (-x) * Real.log 2 ∧
      (f_double_prime realMath x c).1 = 1 + (2 : ℝ) ^ (-x) * Real.log 2 ^ 2) ∧
    (∀ c' : ℤ, (f realMath x c').1 = (f realMath x c).1 ∧
      (f_prime realMath x c').1 = (f_prime realMath x c).1 ∧
      (f_double_prime realMath x c').1 = (f_double_prime realMath x c).1) ∧
    ((f realMath x 2147483647).2 = -2147483648 ∧
      (f_prime realMath x 2147483647).2 = -2147483648 ∧
      (f_double_prime realMath x 2147483647).2 = -2147483648) := by
  have hw : int_wrap (c + 1) = c + 1 := int_wrap_of_range (c + 1) (by omega) (by omega)
  have hmax : int_wrap (2147483647 + 1) = -2147483648 := by
    unfold int_wrap
    decide
  refine ⟨⟨hw, hw, hw⟩, ⟨?_, ?_, ?_⟩,
    ⟨f_real x c, f_prime_real x c, f_double_prime_real x c⟩, fun c' => ⟨rfl, rfl, rfl⟩,
    ⟨hmax, hmax, hmax⟩⟩ <;>
  · simp only [f_snd, f_prime_snd, f_double_prime_snd, hw]
    omega

/-- C3 witness: a call at `x = 0` with the initial counter `0`. -/
theorem evaluator_call_counts_once_witness :
    (-2147483648 : ℤ) ≤ 0 ∧ (0 : ℤ) < 2147483647 ∧ (f realMath 0 0).2 = 0 + 1 :=
  ⟨by decide, by decide,
    (evaluator_call_counts_once 0 0 (by decide) (by decide)).1.1⟩

/-- C3 as stated fails: a call with the counter at `INT_MAX = 2147483647` leaves it at
`-2147483648`, which is not `c + 1` and is below `c`. -/
theorem counter_wraps_at_int_max :
    (f realMath 0 2147483647).2 = -2147483648 ∧
    (f_prime realMath 0 2147483647).2 = -2147483648 ∧
    (f_double_prime realMath 0 2147483647).2 = -2147483648 ∧
    ¬ (f realMath 0 2147483647).2 = 2147483647 + 1 ∧
    ¬ (2147483647 : ℤ) ≤ (f realMath 0 2147483647).2 := by
  simp only [f_snd, f_prime_snd, f_double_prime_snd, int_wrap]
  decide

/-! ## Derivatives of the target function -/

theorem hasDerivAt_two_rpow_neg (x : ℝ) :
    HasDerivAt (fun y : ℝ => (2 : ℝ) ^ (-y)) (-((2 : ℝ) ^ (-x) * Real.log 2)) x := by
  have h2 : (0 : ℝ) < 2 := by norm_num
  have h := (Real.hasStrictDerivAt_const_rpow h2 (-x)).hasDerivAt
  have hn : HasDerivAt (fun y : ℝ => -y) (-1) x := (hasDerivAt_id x).neg
  have hc := HasDerivAt.comp x h hn
  convert hc using 1
  ring

/-- C4: over the reals `f` is differentiable at every `x` with derivative `f_prime x`,
and `f_prime` is differentiable at every `x` with derivative `f_double_prime x`. -/
theorem f_prime_is_derivative (x : ℝ) (c c' : ℤ) :
    HasDerivAt (fun y : ℝ => (f realMath y c).1) (f_prime realMath x c').1 x ∧
    HasDerivAt (fun y : ℝ => (f_prime realMath y c).1) (f_double_prime realMath x c').1 x := by
  constructor
  · have h1 : HasDerivAt (fun y : ℝ => 0.5 * y ^ 2 - 10 + (2 : ℝ) ^ (-y))
        (0.5 * (2 * x) - 0 + -((2 : ℝ) ^ (-x) * Real.log 2)) x := by
      have hsq : HasDerivAt (fun y : ℝ => y ^ 2) (2 * x) x := by
        simpa using hasDerivAt_pow 2 x
      exact ((hsq.const_mul (0.5 : ℝ)).sub (hasDerivAt_const x (10 : ℝ))).add
        (hasDerivAt_two_rpow_neg x)
    have hf : (fun y : ℝ => (f realMath y c).1)
        = fun y : ℝ => 0.5 * y ^ 2 - 10 + (2 : ℝ) ^ (-y) := by
      funext y
      exact f_real y c
    rw [hf, f_prime_real]
    convert h1 using 1
    ring
  · have h1 : HasDerivAt (fun y : ℝ => y - (2 : ℝ) ^ (-y) * Real.log 2)
        (1 - -((2 : ℝ) ^ (-x) * Real.log 2) * Real.log 2) x :=
      (hasDerivAt_id x).sub ((hasDerivAt_two_rpow_neg x).mul_const (Real.log 2))
    have hf : (fun y : ℝ => (f_prime realMath y c).1)
        = fun y : ℝ => y - (2 : ℝ) ^ (-y) * Real.log 2 := by
      funext y
      exact f_prime_real y c
    rw [hf, f_double_prime_real]
    convert h1 using 1
    ring

/-! ## The Newton loop -/

theorem newton_init_ok (M : CMath α) (x : α) (c : ℤ) (hd : f_prime_value M x ≠ 0) :
    newton_init M x c = .ok
      { x_prev_prev := x, x_prev := x, x_next := newton_map M x,
        fx_next := f_value M (newton_map M x), n := 1, calc_count := int_wrap (c + 3) } := by
  have hd' : ¬ (f_prime M x (f M x c).2).1 = 0 := hd
  unfold newton_init checked_div
  dsimp only
  rw [if_neg hd']
  simp only [Except.map, f_snd, f_prime_snd, NewtonState.mk.injEq, Except.ok.injEq]
  refine ⟨trivial, trivial, rfl, rfl, trivial, ?_⟩
  simp only [int_wrap]
  omega

theorem newton_step_ok (M : CMath α) (s : NewtonState α)
    (hd : f_prime_value M s.x_next ≠ 0) :
    newton_step M s = .ok
      { x_prev_prev := s.x_prev, x_prev := s.x_next,
        x_next := s.x_next - s.fx_next / f_prime_value M s.x_next,
        fx_next := f_value M (s.x_next - s.fx_next / f_prime_value M s.x_next),
        n := s.n + 1, calc_count := int_wrap (s.calc_count + 2) } := by
  have hd' : ¬ (f_prime M s.x_next s.calc_count).1 = 0 := hd
  unfold newton_step checked_div
  dsimp only
  rw [if_neg hd']
  simp only [Except.map, f_snd, f_prime_snd, NewtonState.mk.injEq, Except.ok.injEq]
  refine ⟨trivial, trivial, rfl, rfl, trivial, ?_⟩
  simp only [int_wrap]
  omega

theorem newton_init_undefined (M : CMath α) (x0 : α) (c : ℤ)
    (hd : f_prime_value M x0 = 0) :
    newton_init M x0 c = .error .division_by_zero := by
  have hd' : (f_prime M x0 (f M x0 c).2).1 = 0 := hd
  unfold newton_init checked_div
  dsimp only
  rw [if_pos hd']
  rfl

theorem newton_step_undefined (M : CMath α) (s : NewtonState α)
    (hd : f_prime_value M s.x_next = 0) :
    newton_step M s = .error .division_by_zero := by
  have hd' : (f_prime M s.x_next s.calc_count).1 = 0 := hd
  unfold newton_step checked_div
  dsimp only
  rw [if_pos hd']
  rfl

theorem newton_continue_shift (eps1 eps2 : α) (d : ℤ) (s : NewtonState α) :
    newton_continue eps1 eps2 (s.shift d) ↔ newton_continue eps1 eps2 s := Iff.rfl

theorem newton_step_shift (M : CMath α) (d : ℤ) (s : NewtonState α) :
    newton_step M (s.shift d) = (newton_step M s).map (NewtonState.shift d) := by
  by_cases hd : f_prime_value M s.x_next = 0
  · rw [newton_step_undefined M s hd, newton_step_undefined M (s.shift d) hd]
    rfl
  · rw [newton_step_ok M s hd, newton_step_ok M (s.shift d) hd]
    simp only [Except.map, NewtonState.shift, Except.ok.injEq, NewtonState.mk.injEq,
      true_and, and_true]
    simp only [int_wrap]
    omega

theorem newton_loop_shift (M : CMath α) (eps1 eps2 : α) (d : ℤ) (fuel : ℕ) :
    ∀ s : NewtonState α, newton_loop M eps1 eps2 fuel (s.shift d)
      = (newton_loop M eps1 eps2 fuel s).map (NewtonState.shift d) := by
  induction fuel with
  | zero =>
    intro s
    simp only [newton_loop, newton_continue_shift]
    split_ifs <;> rfl
  | succ k ih =>
    intro s
    simp only [newton_loop, newton_continue_shift]
    split_ifs
    · rw [newton_step_shift]
      cases hs : newton_step M s with
      | error e => rfl
      | ok t => simpa [Except.map, Except.bind] using ih t
    · rfl

theorem newton_init_shift (M : CMath α) (x : α) (c : ℤ) (d : ℤ) :
    newton_init M x (c + d) = (newton_init M x c).map (NewtonState.shift d) := by
  by_cases hd : f_prime_value M x = 0
  · rw [newton_init_undefined M x c hd, newton_init_undefined M x (c + d) hd]
    rfl
  · rw [newton_init_ok M x c hd, newton_init_ok M x (c + d) hd]
    simp only [Except.map, NewtonState.shift, Except.ok.injEq, NewtonState.mk.injEq,
      true_and, and_true]
    simp only [int_wrap]
    omega

theorem newton_final_shift (M : CMath α) (fuel : ℕ) (x eps1 eps2 : α) (c d : ℤ) :
    newton_final M fuel x eps1 eps2 (c + d)
      = (newton_final M fuel x eps1 eps2 c).map (NewtonState.shift d) := by
  unfold newton_final
  rw [newton_init_shift]
  cases hs : newton_init M x c with
  | error e => rfl
  | ok t => simpa [Except.map, Except.bind] using newton_loop_shift M eps1 eps2 d fuel t

theorem convergence_estimate_shift (M : CMath α) (d : ℤ) (s : NewtonState α) :
    convergence_estimate M (s.shift d) = convergence_estimate M s := rfl

/-- C10: the root, the iteration count and the convergence estimate returned by
`newton_method`, as well as whether it returns at all, are the same for any two initial
values `c` and `c'` of the counter. -/
theorem newton_method_ignores_counter (M : CMath α) (fuel : ℕ) (x eps1 eps2 : α)
    (c c' : ℤ) :
    (newton_method M fuel x eps1 eps2 c).map NewtonResult.answer
      = (newton_method M fuel x eps1 eps2 c').map NewtonResult.answer := by
  have hc : c' = c + (c' - c) := by ring
  rw [hc]
  unfold newton_method
  rw [newton_final_shift]
  cases newton_final M fuel x eps1 eps2 c with
  | error e => rfl
  | ok t => rfl

theorem newton_init_coherent (M : CMath α) (x : α) (c : ℤ) (s : NewtonState α)
    (hs : newton_init M x c = .ok s) : s.fx_next = f_value M s.x_next := by
  unfold newton_init checked_div at hs
  dsimp only at hs
  split_ifs at hs with hq
  · simp [Except.map] at hs
  · simp only [Except.map, Except.ok.injEq] at hs
    subst hs
    rfl

theorem newton_step_coherent (M : CMath α) (s t : NewtonState α)
    (hs : newton_step M s = .ok t) : t.fx_next = f_value M t.x_next := by
  unfold newton_step checked_div at hs
  dsimp only at hs
  split_ifs at hs with hq
  · simp [Except.map] at hs
  · simp only [Except.map, Except.ok.injEq] at hs
    subst hs
    rfl

theorem newton_loop_stop (M : CMath α) (eps1 eps2 : α) (fuel : ℕ) (s : NewtonState α)
    (hs : ¬ newton_continue eps1 eps2 s) : newton_loop M eps1 eps2 fuel s = .ok s := by
  cases fuel <;> simp [newton_loop, hs]

theorem newton_loop_exit (M : CMath α) (eps1 eps2 : α) (fuel : ℕ) :
    ∀ s t : NewtonState α, newton_loop M eps1 eps2 fuel s = .ok t →
      ¬ newton_continue eps1 eps2 t := by
  induction fuel with
  | zero =>
    intro s t hs
    simp only [newton_loop] at hs
    split_ifs at hs with hc
    simp only [Except.ok.injEq] at hs
    exact hs ▸ hc
  | succ k ih =>
    intro s t hs
    simp only [newton_loop] at hs
    split_ifs at hs with hc
    · cases hstep : newton_step M s with
      | error e => simp [hstep, Except.bind] at hs
      | ok u =>
        rw [hstep] at hs
        exact ih u t hs
    · simp only [Except.ok.injEq] at hs
      exact hs ▸ hc

theorem newton_loop_coherent (M : CMath α) (eps1 eps2 : α) (fuel : ℕ) :
    ∀ s t : NewtonState α, s.fx_next = f_value M s.x_next →
      newton_loop M eps1 eps2 fuel s = .ok t → t.fx_next = f_value M t.x_next := by
  induction fuel with
  | zero =>
    intro s t hco hs
    simp only [newton_loop] at hs
    split_ifs at hs with hc
    simp only [Except.ok.injEq] at hs
    exact hs ▸ hco
  | succ k ih =>
    intro s t hco hs
    simp only [newton_loop] at hs
    split_ifs at hs with hc
    · cases hstep : newton_step M s with
      | error e => simp [hstep, Except.bind] at hs
      | ok u =>
        rw [hstep] at hs
        exact ih u t (newton_step_coherent M s u hstep) hs
    · simp only [Except.ok.injEq] at hs
      exact hs ▸ hco

theorem newton_final_exit (M : CMath α) (fuel : ℕ) (x eps1 eps2 : α) (c : ℤ)
    (s : NewtonState α) (hs : newton_final M fuel x eps1 eps2 c = .ok s) :
    ¬ newton_continue eps1 eps2 s ∧ s.fx_next = f_value M s.x_next := by
  unfold newton_final at hs
  cases hi : newton_init M x c with
  | error e => simp [hi, Except.bind] at hs
  | ok u =>
    rw [hi] at hs
    exact ⟨newton_loop_exit M eps1 eps2 fuel u s hs,
      newton_loop_coherent M eps1 eps2 fuel u s (newton_init_coherent M x c u hi) hs⟩

theorem newton_method_of_final (M : CMath α) (fuel : ℕ) (x eps1 eps2 : α) (c : ℤ)
    (s : NewtonState α) (hs : newton_final M fuel x eps1 eps2 c = .ok s) :
    newton_method M fuel x eps1 eps2 c = .ok
      { root := s.x_next, n := s.n, convergence := convergence_estimate M s,
        calc_count := s.calc_count } := by
  unfold newton_method
  rw [hs]
  rfl

/-! ## The Newton loop in machine arithmetic -/

theorem machine_newton_loop_exit {V : Type} (m : MachineArith V) (eps1 eps2 : V)
    (fuel : ℕ) :
    ∀ s t : NewtonState V, machine_newton_loop m eps1 eps2 fuel s = .ok t →
      machine_newton_continue m eps1 eps2 t = false := by
  induction fuel with
  | zero =>
    intro s t hs
    rw [machine_newton_loop] at hs
    split_ifs at hs with hc
    simp only [Except.ok.injEq] at hs
    subst hs
    simpa using hc
  | succ k ih =>
    intro s t hs
    rw [machine_newton_loop] at hs
    split_ifs at hs with hc
    · exact ih _ t hs
    · simp only [Except.ok.injEq] at hs
      subst hs
      simpa using hc

theorem machine_newton_loop_coherent {V : Type} (m : MachineArith V) (eps1 eps2 : V)
    (fuel : ℕ) :
    ∀ s t : NewtonState V, s.fx_next = m.f s.x_next →
      machine_newton_loop m eps1 eps2 fuel s = .ok t → t.fx_next = m.f t.x_next := by
  induction fuel with
  | zero =>
    intro s t hco hs
    rw [machine_newton_loop] at hs
    split_ifs at hs with hc
    simp only [Except.ok.injEq] at hs
    exact hs ▸ hco
  | succ k ih =>
    intro s t hco hs
    rw [machine_newton_loop] at hs
    split_ifs at hs with hc
    · exact ih _ t rfl hs
    · simp only [Except.ok.injEq] at hs
      exact hs ▸ hco

/-- When the loop is left in machine arithmetic, the loop condition is false of the
final state, whose `fx_next` is the machine `f` at `x_next`; where each failed `>=`
comparison means `<` (no NaN among the operands), one of the two `<` holds. -/
theorem machine_newton_final_exit {V : Type} (m : MachineArith V) (fuel : ℕ)
    (x eps1 eps2 : V) (c : ℤ) (s : NewtonState V)
    (hs : machine_newton_final m fuel x eps1 eps2 c = .ok s) :
    s.fx_next = m.f s.x_next ∧
    ¬ (m.ge (m.abs (m.sub s.x_next s.x_prev)) eps1 = true ∧
        m.ge (m.abs (m.f s.x_next)) eps2 = true) ∧
    ((m.ge (m.abs (m.sub s.x_next s.x_prev)) eps1 = false →
        m.lt (m.abs (m.sub s.x_next s.x_prev)) eps1 = true) →
      (m.ge (m.abs (m.f s.x_next)) eps2 = false →
        m.lt (m.abs (m.f s.x_next)) eps2 = true) →
      m.lt (m.abs (m.sub s.x_next s.x_prev)) eps1 = true ∨
        m.lt (m.abs (m.f s.x_next)) eps2 = true) := by
  have hco := machine_newton_loop_coherent m eps1 eps2 fuel _ s rfl hs
  have hexit := machine_newton_loop_exit m eps1 eps2 fuel _ s hs
  unfold machine_newton_continue at hexit
  rw [hco, Bool.and_eq_false_iff] at hexit
  refine ⟨hco, ?_, fun h1 h2 => ?_⟩
  · rintro ⟨h1, h2⟩
    rcases hexit with h | h
    · rw [h1] at h
      exact absurd h (by decide)
    · rw [h2] at h
      exact absurd h (by decide)
  · rcases hexit with h | h
    · exact Or.inl (h1 h)
    · exact Or.inr (h2 h)

/-- Where exact arithmetic has values it is a machine arithmetic: a state in which the
exact loop is left is one in which the loop over `exact_machine` is left. -/
theorem machine_newton_loop_of_exact (M : CMath α) (eps1 eps2 : α) (fuel : ℕ) :
    ∀ s t : NewtonState α, s.fx_next = f_value M s.x_next →
      newton_loop M eps1 eps2 fuel s = .ok t →
      machine_newton_loop (exact_machine M) eps1 eps2 fuel s = .ok t := by
  have hcont : ∀ s : NewtonState α, s.fx_next = f_value M s.x_next →
      (machine_newton_continue (exact_machine M) eps1 eps2 s = true
        ↔ newton_continue eps1 eps2 s) := by
    intro s _
    simp [machine_newton_continue, exact_machine, newton_continue]
  induction fuel with
  | zero =>
    intro s t hco hs
    rw [newton_loop] at hs
    rw [machine_newton_loop]
    split_ifs at hs with hc
    rw [if_neg (fun h => hc ((hcont s hco).mp h))]
    exact hs
  | succ k ih =>
    intro s t hco hs
    rw [newton_loop] at hs
    rw [machine_newton_loop]
    split_ifs at hs with hc
    · rw [if_pos ((hcont s hco).mpr hc)]
      cases hstep : newton_step M s with
      | error e => simp [hstep, Except.bind] at hs
      | ok u =>
        rw [hstep] at hs
        have hd : f_prime_value M s.x_next ≠ 0 := by
          intro h0
          rw [newton_step_undefined M s h0] at hstep
          exact absurd hstep (by simp)
        have hu := newton_step_ok M s hd
        rw [hstep, Except.ok.injEq] at hu
        have hm : machine_newton_step (exact_machine M) s = u := by
          rw [hu]
          simp only [machine_newton_step, exact_machine, hco, int_wrap_add_left]
          congr 1
          simp only [int_wrap]
          omega
        rw [hm]
        exact ih u t (newton_step_coherent M s u hstep) hs
    · rw [if_neg (fun h => hc ((hcont s hco).mp h))]
      exact hs

theorem machine_newton_final_of_exact (M : CMath α) (fuel : ℕ) (x eps1 eps2 : α) (c : ℤ)
    (s : NewtonState α) (hs : newton_final M fuel x eps1 eps2 c = .ok s) :
    machine_newton_final (exact_machine M) fuel x eps1 eps2 c = .ok s := by
  unfold newton_final at hs
  cases hi : newton_init M x c with
  | error e => simp [hi, Except.bind] at hs
  | ok u =>
    rw [hi] at hs
    have hd : f_prime_value M x ≠ 0 := by
      intro h0
      rw [newton_init_undefined M x c h0] at hi
      exact absurd hi (by simp)
    have hu := newton_init_ok M x c hd
    rw [hi, Except.ok.injEq] at hu
    have hm : machine_newton_init (exact_machine M) x c = u := by
      rw [hu]
      simp only [machine_newton_init, exact_machine, int_wrap_add_left]
      congr 1
      simp only [int_wrap]
      omega
    unfold machine_newton_final
    rw [hm]
    exact machine_newton_loop_of_exact M eps1 eps2 fuel u s
      (newton_init_coherent M x c u hi) hs

/-- C1, as the code has it: when `newton_method` returns, the loop was left in a state
`s` whose `x_next` is the returned root and whose `fx_next` is `f(x_next)`, and the loop
condition `|x_next - x_prev| >= eps1 && |f(x_next)| >= eps2` is false there.  The values
being numbers of an ordered field, this is to say that at least one of
`|x_next - x_prev| < eps1`, `|f(x_next)| < eps2` holds.  Conversely the loop hands back
unchanged, whatever its fuel, every state in which one of the two holds, and runs its
body on every state in which neither does.  The run is also a run in machine arithmetic,
and in any machine arithmetic, NaN and infinities included, the loop is left only in a
state of which the loop condition is false; one of the two `<` then holds provided each
failed `>=` comparison means `<`, as it does when no operand is NaN. -/
theorem newton_stops_when_one_criterion_met (M : CMath α) (fuel : ℕ) (x eps1 eps2 : α)
    (c : ℤ) (s : NewtonState α) (hs : newton_final M fuel x eps1 eps2 c = .ok s) :
    (∃ r : NewtonResult α, newton_method M fuel x eps1 eps2 c = .ok r ∧
      r.root = s.x_next) ∧
    s.fx_next = f_value M s.x_next ∧
    ¬ (|s.x_next - s.x_prev| ≥ eps1 ∧ |f_value M s.x_next| ≥ eps2) ∧
    (|s.x_next - s.x_prev| < eps1 ∨ |f_value M s.x_next| < eps2) ∧
    (∀ (k : ℕ) (t : NewtonState α), (|t.x_next - t.x_prev| < eps1 ∨ |t.fx_next| < eps2) →
      newton_loop M eps1 eps2 k t = .ok t) ∧
    (∀ (k : ℕ) (t : NewtonState α), |t.x_next - t.x_prev| ≥ eps1 ∧ |t.fx_next| ≥ eps2 →
      newton_loop M eps1 eps2 (k + 1) t
        = (newton_step M t).bind (newton_loop M eps1 eps2 k) ∧
      newton_loop M eps1 eps2 0 t = .error .newton_fuel) ∧
    machine_newton_final (exact_machine M) fuel x eps1 eps2 c = .ok s ∧
    (∀ (V : Type) (m : MachineArith V) (k : ℕ) (y e1 e2 : V) (d : ℤ) (t : NewtonState V),
      machine_newton_final m k y e1 e2 d = .ok t →
      t.fx_next = m.f t.x_next ∧
      ¬ (m.ge (m.abs (m.sub t.x_next t.x_prev)) e1 = true ∧
          m.ge (m.abs (m.f t.x_next)) e2 = true) ∧
      ((m.ge (m.abs (m.sub t.x_next t.x_prev)) e1 = false →
          m.lt (m.abs (m.sub t.x_next t.x_prev)) e1 = true) →
        (m.ge (m.abs (m.f t.x_next)) e2 = false →
          m.lt (m.abs (m.f t.x_next)) e2 = true) →
        m.lt (m.abs (m.sub t.x_next t.x_prev)) e1 = true ∨
          m.lt (m.abs (m.f t.x_next)) e2 = true)) := by
  obtain ⟨hexit, hco⟩ := newton_final_exit M fuel x eps1 eps2 c s hs
  have hguard : ¬ (|s.x_next - s.x_prev| ≥ eps1 ∧ |f_value M s.x_next| ≥ eps2) := by
    rw [← hco]
    exact hexit
  refine ⟨⟨_, newton_method_of_final M fuel x eps1 eps2 c s hs, rfl⟩, hco, hguard, ?_, ?_,
    ?_, machine_newton_final_of_exact M fuel x eps1 eps2 c s hs,
    fun V m k y e1 e2 d t ht => machine_newton_final_exit m k y e1 e2 d t ht⟩
  · by_contra hcon
    push_neg at hcon
    exact hguard ⟨hcon.1, hcon.2⟩
  · intro k t ht
    apply newton_loop_stop
    unfold newton_continue
    rintro ⟨h1, h2⟩
    rcases ht with ht | ht
    · exact absurd ht (not_lt.mpr h1)
    · exact absurd ht (not_lt.mpr h2)
  · intro k t ht
    have hc : newton_continue eps1 eps2 t := ht
    exact ⟨by rw [newton_loop, if_pos hc], by rw [newton_loop, if_pos hc]⟩

/-! ## Real analysis of the Newton map of the target function -/

theorem f_value_real (x : ℝ) :
    f_value realMath x = 0.5 * x ^ 2 - 10 + (2 : ℝ) ^ (-x) := f_real x 0

theorem f_prime_value_real (x : ℝ) :
    f_prime_value realMath x = x - (2 : ℝ) ^ (-x) * Real.log 2 := f_prime_real x 0

theorem f_double_prime_value_real (x : ℝ) :
    f_double_prime_value realMath x = 1 + (2 : ℝ) ^ (-x) * Real.log 2 ^ 2 :=
  f_double_prime_real x 0

theorem log_two_bounds : (0.69 : ℝ) < Real.log 2 ∧ Real.log 2 < 0.7 := by
  constructor
  · have := Real.log_two_gt_d9
    linarith
  · have := Real.log_two_lt_d9
    linarith

theorem two_rpow_neg_pos (x : ℝ) : 0 < (2 : ℝ) ^ (-x) :=
  Real.rpow_pos_of_pos (by norm_num) _

theorem two_rpow_neg_nat (n : ℕ) : (2 : ℝ) ^ (-(n : ℝ)) = 1 / 2 ^ n := by
  rw [Real.rpow_neg (by norm_num), Real.rpow_natCast, one_div]

theorem two_rpow_neg_le (x : ℝ) (hx : 4 ≤ x) : (2 : ℝ) ^ (-x) ≤ 1 / 16 := by
  have h : (2 : ℝ) ^ (-x) ≤ (2 : ℝ) ^ (-((4 : ℕ) : ℝ)) :=
    Real.rpow_le_rpow_of_exponent_le (by norm_num) (by push_cast; linarith)
  rw [two_rpow_neg_nat] at h
  norm_num at h
  linarith

theorem two_rpow_neg_ge (x : ℝ) (hx : x ≤ 5) : 1 / 32 ≤ (2 : ℝ) ^ (-x) := by
  have h : (2 : ℝ) ^ (-((5 : ℕ) : ℝ)) ≤ (2 : ℝ) ^ (-x) :=
    Real.rpow_le_rpow_of_exponent_le (by norm_num) (by push_cast; linarith)
  rw [two_rpow_neg_nat] at h
  norm_num at h
  linarith

theorem two_rpow_neg_shift (x y : ℝ) :
    (2 : ℝ) ^ (-y) = (2 : ℝ) ^ (-x) * Real.exp (-((y - x) * Real.log 2)) := by
  have h2 : (0 : ℝ) < 2 := by norm_num
  rw [Real.rpow_def_of_pos h2, Real.rpow_def_of_pos h2, ← Real.exp_add]
  congr 1
  ring

/-- The value of `f` one Newton step away from `x` is the Taylor remainder. -/
theorem f_value_newton_map (x : ℝ) (hd : f_prime_value realMath x ≠ 0) :
    f_value realMath (newton_map realMath x)
      = 0.5 * (newton_map realMath x - x) ^ 2 + (2 : ℝ) ^ (-x) *
        (Real.exp (-((newton_map realMath x - x) * Real.log 2)) - 1
          + (newton_map realMath x - x) * Real.log 2) := by
  have hstep : (newton_map realMath x - x) * f_prime_value realMath x
      = -f_value realMath x := by
    unfold newton_map
    field_simp
    ring
  rw [f_value_real, f_prime_value_real] at hstep
  rw [f_value_real, two_rpow_neg_shift x (newton_map realMath x)]
  linear_combination hstep

theorem basin_point (x : ℝ) (hx : 4 ≤ x) (hf : 0 ≤ f_value realMath x) :
    4.455 ≤ x ∧ 4.38 ≤ f_prime_value realMath x := by
  have hp := two_rpow_neg_pos x
  have hp' := two_rpow_neg_le x hx
  have hL := log_two_bounds
  rw [f_value_real] at hf
  rw [f_prime_value_real]
  have hx' : 4.455 ≤ x := by
    by_contra hcon
    push_neg at hcon
    nlinarith
  refine ⟨hx', ?_⟩
  have : (2 : ℝ) ^ (-x) * Real.log 2 ≤ 1 / 16 * 0.7 :=
    mul_le_mul hp' hL.2.le (by linarith) (by norm_num)
  norm_num at this ⊢
  linarith

theorem newton_map_basin (x : ℝ) (hx : 4 ≤ x) (hf : 0 ≤ f_value realMath x) :
    4 ≤ newton_map realMath x ∧ newton_map realMath x ≤ x ∧
      x - newton_map realMath x ≤ f_value realMath x / 4.38 ∧
      0.5 * (newton_map realMath x - x) ^ 2 ≤ f_value realMath (newton_map realMath x) ∧
      (f_value realMath x ≤ 2.21 →
        f_value realMath (newton_map realMath x)
          ≤ 0.54 * (newton_map realMath x - x) ^ 2) := by
  obtain ⟨hx', hD⟩ := basin_point x hx hf
  have hDpos : 0 < f_prime_value realMath x := by linarith
  have hp := two_rpow_neg_pos x
  have hp' := two_rpow_neg_le x hx
  have hL := log_two_bounds
  have hres := f_value_newton_map x hDpos.ne'
  have hdelta : x - newton_map realMath x
      = f_value realMath x / f_prime_value realMath x := by
    unfold newton_map
    ring
  have hdelta0 : 0 ≤ x - newton_map realMath x := by
    rw [hdelta]
    exact div_nonneg hf hDpos.le
  have hdelta1 : x - newton_map realMath x ≤ f_value realMath x / 4.38 := by
    rw [hdelta]
    exact div_le_div_of_nonneg_left hf (by norm_num) hD
  have hlow : 4 ≤ newton_map realMath x := by
    have hq : f_value realMath x / f_prime_value realMath x ≤ x - 4 := by
      rw [div_le_iff₀ hDpos, f_value_real, f_prime_value_real]
      have hpL : (2 : ℝ) ^ (-x) * Real.log 2 ≤ 1 / 16 * 0.7 :=
        mul_le_mul hp' hL.2.le (by linarith) (by norm_num)
      nlinarith [mul_nonneg (sub_nonneg.mpr hx) (sub_nonneg.mpr hpL), sq_nonneg (x - 4.05)]
    linarith
  have hexp : 0 ≤ Real.exp (-((newton_map realMath x - x) * Real.log 2)) - 1
      + (newton_map realMath x - x) * Real.log 2 := by
    have := Real.add_one_le_exp (-((newton_map realMath x - x) * Real.log 2))
    linarith
  have hT : f_value realMath (newton_map realMath x)
      = 0.5 * (newton_map realMath x - x) ^ 2 + (2 : ℝ) ^ (-x) *
        (Real.exp (-((newton_map realMath x - x) * Real.log 2)) - 1
          + (newton_map realMath x - x) * Real.log 2) := hres
  generalize Real.exp (-((newton_map realMath x - x) * Real.log 2)) - 1
      + (newton_map realMath x - x) * Real.log 2 = T at hT hexp
  refine ⟨hlow, by linarith, hdelta1, ?_, ?_⟩
  · rw [hT]
    have := mul_nonneg hp.le hexp
    linarith
  · intro hB
    have hsmall : x - newton_map realMath x ≤ 0.51 := by
      have h1 : f_value realMath x / 4.38 ≤ 2.21 / 4.38 :=
        div_le_div_of_nonneg_right hB (by norm_num)
      have h2 : (2.21 : ℝ) / 4.38 ≤ 0.51 := by norm_num
      linarith
    have hu0 : 0 ≤ -((newton_map realMath x - x) * Real.log 2) := by
      have := mul_nonneg hdelta0 (by linarith : (0 : ℝ) ≤ Real.log 2)
      linarith
    have hu1 : -((newton_map realMath x - x) * Real.log 2) ≤ 1 := by
      have := mul_le_mul hsmall hL.2.le (by linarith : (0 : ℝ) ≤ Real.log 2)
        (by norm_num : (0 : ℝ) ≤ 0.51)
      norm_num at this
      linarith
    have hu : |-((newton_map realMath x - x) * Real.log 2)| ≤ 1 := by
      rw [abs_of_nonneg hu0]
      exact hu1
    have hquad := (abs_le.mp (Real.abs_exp_sub_one_sub_id_le hu)).2
    have hL2 : Real.log 2 ^ 2 ≤ 0.49 := by
      have := mul_le_mul hL.2.le hL.2.le (by linarith : (0 : ℝ) ≤ Real.log 2)
        (by norm_num : (0 : ℝ) ≤ 0.7)
      norm_num at this ⊢
      nlinarith
    have hsq : (-((newton_map realMath x - x) * Real.log 2)) ^ 2
        ≤ 0.49 * (newton_map realMath x - x) ^ 2 := by
      have h3 : (-((newton_map realMath x - x) * Real.log 2)) ^ 2
          = Real.log 2 ^ 2 * (newton_map realMath x - x) ^ 2 := by ring
      rw [h3]
      exact mul_le_mul_of_nonneg_right hL2 (sq_nonneg _)
    have hE : Real.exp (-((newton_map realMath x - x) * Real.log 2)) - 1
        + (newton_map realMath x - x) * Real.log 2
        ≤ 0.49 * (newton_map realMath x - x) ^ 2 := by linarith
    have hexp' : 0 ≤ Real.exp (-((newton_map realMath x - x) * Real.log 2)) - 1
        + (newton_map realMath x - x) * Real.log 2 := by
      have := Real.add_one_le_exp (-((newton_map realMath x - x) * Real.log 2))
      linarith
    have hpE := mul_le_mul_of_nonneg_right hp' hexp'
    have hd2 := sq_nonneg (newton_map realMath x - x)
    rw [hres]
    linarith

theorem two_rpow_neg_seven : (2 : ℝ) ^ (-(7 : ℝ)) = 1 / 128 := by
  rw [show (7 : ℝ) = ((7 : ℕ) : ℝ) by norm_num, two_rpow_neg_nat]
  norm_num

theorem f_value_seven : f_value realMath 7 = 1857 / 128 := by
  rw [f_value_real, two_rpow_neg_seven]
  norm_num

theorem f_prime_value_seven :
    6.99 ≤ f_prime_value realMath 7 ∧ f_prime_value realMath 7 ≤ 7 := by
  have hL := log_two_bounds
  rw [f_prime_value_real, two_rpow_neg_seven]
  constructor <;> norm_num <;> linarith

/-- The first Newton step from `7` is between `2.0725` and `2.08` long. -/
theorem first_step_from_seven :
    2.0725 ≤ 7 - newton_map realMath 7 ∧ 7 - newton_map realMath 7 ≤ 2.08 := by
  obtain ⟨hlo, hhi⟩ := f_prime_value_seven
  have hpos : 0 < f_prime_value realMath 7 := by linarith
  have hd : 7 - newton_map realMath 7 = 1857 / 128 / f_prime_value realMath 7 := by
    unfold newton_map
    rw [f_value_seven]
    ring
  rw [hd]
  constructor
  · rw [le_div_iff₀ hpos]
    linarith
  · rw [div_le_iff₀ hpos]
    linarith

theorem in_basin_first_iterate (c : ℤ) :
    in_basin
      { x_prev_prev := 7, x_prev := 7, x_next := newton_map realMath 7,
        fx_next := f_value realMath (newton_map realMath 7), n := 1, calc_count := c } ∧
    f_value realMath (newton_map realMath 7) ≤ 2.21 ∧
    2 ≤ f_value realMath (newton_map realMath 7) := by
  have h7 : 0 ≤ f_value realMath 7 := by
    rw [f_value_seven]
    norm_num
  obtain ⟨h4, -, -, hlow, -⟩ := newton_map_basin 7 (by norm_num) h7
  obtain ⟨hlo, hhi⟩ := first_step_from_seven
  have hp' := two_rpow_neg_le (newton_map realMath 7) h4
  have hup : f_value realMath (newton_map realMath 7) ≤ 2.21 := by
    rw [f_value_real]
    nlinarith
  have hge : 2 ≤ f_value realMath (newton_map realMath 7) := by nlinarith
  refine ⟨⟨h4, by linarith, rfl, by linarith, Or.inr ?_⟩, hup, hge⟩
  show 1 ≤ |newton_map realMath 7 - 7|
  rw [abs_sub_comm, abs_of_nonneg (by linarith)]
  linarith

theorem basin_step (s : NewtonState ℝ) (B : ℝ) (hs : in_basin s) (hB : s.fx_next ≤ B)
    (hB' : B ≤ 2.21) :
    ∃ t : NewtonState ℝ, newton_step realMath s = .ok t ∧ in_basin t ∧
      t.fx_next ≤ 0.54 * (B / 4.38) ^ 2 ∧ t.n = s.n + 1 := by
  obtain ⟨h4, h5, hco, h0, -⟩ := hs
  have hf : 0 ≤ f_value realMath s.x_next := hco ▸ h0
  obtain ⟨-, hD⟩ := basin_point s.x_next h4 hf
  have hDne : f_prime_value realMath s.x_next ≠ 0 := by linarith
  obtain ⟨hlow, hle, hdelta, hres, hquad⟩ := newton_map_basin s.x_next h4 hf
  have hmap : s.x_next - s.fx_next / f_prime_value realMath s.x_next
      = newton_map realMath s.x_next := by
    unfold newton_map
    rw [hco]
  have hq := hquad (by rw [← hco]; linarith)
  refine ⟨_, newton_step_ok realMath s hDne, ?_, ?_, rfl⟩
  · simp only [in_basin, hmap]
    refine ⟨hlow, by linarith, trivial, ?_, Or.inl hq⟩
    have := sq_nonneg (newton_map realMath s.x_next - s.x_next)
    linarith
  · simp only [hmap]
    have hd0 : 0 ≤ s.x_next - newton_map realMath s.x_next := by linarith
    have hdB : s.x_next - newton_map realMath s.x_next ≤ B / 4.38 := by
      have : f_value realMath s.x_next / 4.38 ≤ B / 4.38 :=
        div_le_div_of_nonneg_right (by rw [← hco]; exact hB) (by norm_num)
      linarith
    have hsq : (newton_map realMath s.x_next - s.x_next) ^ 2 ≤ (B / 4.38) ^ 2 := by
      have h1 : (newton_map realMath s.x_next - s.x_next) ^ 2
          = (s.x_next - newton_map realMath s.x_next) ^ 2 := by ring
      rw [h1]
      exact pow_le_pow_left₀ hd0 hdB 2
    linarith

theorem basin_loop_unroll (eps1 eps2 : ℝ) (k : ℕ) (s : NewtonState ℝ) (B : ℝ)
    (hs : in_basin s) (hB : s.fx_next ≤ B) (hB' : B ≤ 2.21) :
    (newton_loop realMath eps1 eps2 (k + 1) s = .ok s ∧ ¬ newton_continue eps1 eps2 s) ∨
    ∃ t : NewtonState ℝ, in_basin t ∧ t.fx_next ≤ 0.54 * (B / 4.38) ^ 2 ∧ t.n = s.n + 1 ∧
      newton_loop realMath eps1 eps2 (k + 1) s = newton_loop realMath eps1 eps2 k t := by
  by_cases hc : newton_continue eps1 eps2 s
  · right
    obtain ⟨t, ht, hbt, hft, hn⟩ := basin_step s B hs hB hB'
    refine ⟨t, hbt, hft, hn, ?_⟩
    simp only [newton_loop, if_pos hc, ht]
    rfl
  · left
    exact ⟨newton_loop_stop realMath eps1 eps2 (k + 1) s hc, hc⟩

/-- From `7` the loop is left after at most three body executions, inside the basin. -/
theorem newton_final_from_seven (eps1 eps2 : ℝ) (heps : 1 / 100000 ≤ eps2) (k : ℕ)
    (c : ℤ) :
    ∃ t : NewtonState ℝ, newton_final realMath (k + 3) 7 eps1 eps2 c = .ok t ∧
      in_basin t ∧ t.n ≤ 4 ∧ ¬ newton_continue eps1 eps2 t := by
  have hd7 : f_prime_value realMath 7 ≠ 0 := by
    have := f_prime_value_seven.1
    intro h0
    rw [h0] at this
    norm_num at this
  obtain ⟨hb1, hf1, -⟩ := in_basin_first_iterate (int_wrap (c + 3))
  have hfin : newton_final realMath (k + 3) 7 eps1 eps2 c
      = newton_loop realMath eps1 eps2 (k + 3)
          { x_prev_prev := 7, x_prev := 7, x_next := newton_map realMath 7,
            fx_next := f_value realMath (newton_map realMath 7), n := 1,
            calc_count := int_wrap (c + 3) } := by
    unfold newton_final
    rw [newton_init_ok realMath 7 c hd7]
    rfl
  rw [hfin]
  rcases basin_loop_unroll eps1 eps2 (k + 2) _ 2.21 hb1 hf1 le_rfl with ⟨h1, hc1⟩ | h1
  · exact ⟨_, h1, hb1, by norm_num, hc1⟩
  obtain ⟨t2, hb2, hf2, hn2, he2⟩ := h1
  rw [he2]
  have hB2 : (0.54 : ℝ) * (2.21 / 4.38) ^ 2 ≤ 0.14 := by norm_num
  rcases basin_loop_unroll eps1 eps2 (k + 1) t2 0.14 hb2 (by linarith) (by norm_num)
    with ⟨h2, hc2⟩ | h2
  · exact ⟨_, h2, hb2, by simp [hn2], hc2⟩
  obtain ⟨t3, hb3, hf3, hn3, he3⟩ := h2
  rw [he3]
  have hB3 : (0.54 : ℝ) * (0.14 / 4.38) ^ 2 ≤ 0.0006 := by norm_num
  rcases basin_loop_unroll eps1 eps2 k t3 0.0006 hb3 (by linarith) (by norm_num)
    with ⟨h3, hc3⟩ | h3
  · exact ⟨_, h3, hb3, by simp [hn3, hn2], hc3⟩
  obtain ⟨t4, hb4, hf4, hn4, he4⟩ := h3
  rw [he4]
  have hB4 : (0.54 : ℝ) * (0.0006 / 4.38) ^ 2 < 1 / 100000 := by norm_num
  have hc4 : ¬ newton_continue eps1 eps2 t4 := by
    unfold newton_continue
    rintro ⟨-, h⟩
    rw [abs_of_nonneg hb4.2.2.2.1] at h
    linarith
  exact ⟨_, newton_loop_stop realMath eps1 eps2 k t4 hc4, hb4, by simp [hn4, hn3, hn2], hc4⟩

theorem basin_exit (t : NewtonState ℝ) (hb : in_basin t)
    (hc : ¬ newton_continue (1 / 100000) (1 / 100000) t) :
    4.455 ≤ t.x_next ∧ t.x_next ≤ 4.4652 ∧ 0 ≤ f_value realMath t.x_next ∧
      f_value realMath t.x_next < 1 / 100000 := by
  obtain ⟨h4, h5, hco, h0, hq⟩ := hb
  have hf : 0 ≤ f_value realMath t.x_next := hco ▸ h0
  have hsmall : t.fx_next < 1 / 100000 := by
    by_contra hcon
    push_neg at hcon
    apply hc
    unfold newton_continue
    refine ⟨?_, by rw [abs_of_nonneg h0]; exact hcon⟩
    by_contra hdx
    push_neg at hdx
    rcases hq with hq | hq
    · have habs : (t.x_next - t.x_prev) ^ 2 = |t.x_next - t.x_prev| ^ 2 := (sq_abs _).symm
      have hnn := abs_nonneg (t.x_next - t.x_prev)
      rw [habs] at hq
      nlinarith
    · linarith
  rw [hco] at hsmall
  have hlo := (basin_point t.x_next h4 hf).1
  have hp := two_rpow_neg_ge t.x_next h5
  refine ⟨hlo, ?_, hf, hsmall⟩
  rw [f_value_real] at hsmall
  by_contra hcon
  push_neg at hcon
  nlinarith

/-- The result of `newton_method` started at `7` with both tolerances `1e-5`. -/
theorem newton_method_from_seven (k : ℕ) (c : ℤ) :
    ∃ r : NewtonResult ℝ,
      newton_method realMath (k + 3) 7 (1 / 100000) (1 / 100000) c = .ok r ∧ r.n ≤ 4 ∧
      4.455 ≤ r.root ∧ r.root ≤ 4.4652 ∧ 0 ≤ f_value realMath r.root ∧
      f_value realMath r.root < 1 / 100000 := by
  obtain ⟨t, ht, hb, hn, hc⟩ :=
    newton_final_from_seven (1 / 100000) (1 / 100000) le_rfl k c
  obtain ⟨h1, h2, h3, h4⟩ := basin_exit t hb hc
  exact ⟨_, newton_method_of_final realMath _ 7 _ _ c t ht, hn, h1, h2, h3, h4⟩

/-- C8, as the code has it: started at `x0 = 7` with `eps1 = eps2 = 1e-5` and fuel for at
least three loop iterations, `newton_method` returns with an iteration count `n < 10` a
root `r` with `|r - 4.46| < 0.01` at which `|0.5 * r ^ 2 - 10 + 2 ^ (-r)| < 1e-5`. -/
theorem newton_from_seven_finds_root_near_4_46 (fuel : ℕ) (hfuel : 3 ≤ fuel) (c : ℤ) :
    ∃ r : NewtonResult ℝ,
      newton_method realMath fuel 7 (1 / 100000) (1 / 100000) c = .ok r ∧ r.n < 10 ∧
      |r.root - 4.46| < 0.01 ∧ |0.5 * r.root ^ 2 - 10 + (2 : ℝ) ^ (-r.root)| < 1 / 100000 := by
  obtain ⟨k, rfl⟩ : ∃ k, fuel = k + 3 := ⟨fuel - 3, by omega⟩
  obtain ⟨r, hr, hn, hlo, hhi, h0, hlt⟩ := newton_method_from_seven k c
  refine ⟨r, hr, by omega, ?_, ?_⟩
  · rw [abs_lt]
    constructor <;> norm_num at hlo hhi ⊢ <;> linarith
  · rw [← f_value_real, abs_of_nonneg h0]
    exact hlt

/-- C8 witness: the statement at fuel `5` and counter `3`. -/
theorem newton_from_seven_finds_root_near_4_46_witness :
    ∃ r : NewtonResult ℝ,
      newton_method realMath 5 7 (1 / 100000) (1 / 100000) 3 = .ok r ∧ r.n < 10 ∧
      |r.root - 4.46| < 0.01 ∧ |0.5 * r.root ^ 2 - 10 + (2 : ℝ) ^ (-r.root)| < 1 / 100000 :=
  newton_from_seven_finds_root_near_4_46 5 (by decide) 3

/-- C8 as stated fails: the root returned from `x0 = 7` with `eps1 = eps2 = 1e-5` is not
within `0.01` of `4.26`. -/
theorem newton_from_seven_root_not_near_4_26 :
    ∃ r : NewtonResult ℝ,
      newton_method realMath 3 7 (1 / 100000) (1 / 100000) 3 = .ok r ∧ r.n < 10 ∧
      ¬ |r.root - 4.26| < 0.01 := by
  obtain ⟨r, hr, hn, hlo, -, -, -⟩ := newton_method_from_seven 0 3
  refine ⟨r, hr, by omega, ?_⟩
  rw [abs_lt]
  rintro ⟨-, h⟩
  norm_num at hlo h
  linarith

/-- With `eps1 = 3` the loop is left right after the first step from `7`. -/
theorem newton_final_seven_coarse (eps2 : ℝ) (c : ℤ) :
    newton_final realMath 0 7 3 eps2 c = .ok
      { x_prev_prev := 7, x_prev := 7, x_next := newton_map realMath 7,
        fx_next := f_value realMath (newton_map realMath 7), n := 1,
        calc_count := int_wrap (c + 3) } := by
  have hd7 : f_prime_value realMath 7 ≠ 0 := by
    have := f_prime_value_seven.1
    intro h0
    rw [h0] at this
    norm_num at this
  obtain ⟨hlo, hhi⟩ := first_step_from_seven
  unfold newton_final
  rw [newton_init_ok realMath 7 c hd7]
  apply newton_loop_stop
  unfold newton_continue
  rintro ⟨h, -⟩
  simp only at h
  rw [abs_sub_comm, abs_of_nonneg (by linarith)] at h
  norm_num at hhi
  linarith

/-- C1 witness: the run from `x0 = 7` with `eps1 = 3`, `eps2 = 1e-5`. -/
theorem newton_stops_when_one_criterion_met_witness :
    ∃ s : NewtonState ℝ, newton_final realMath 0 7 3 (1 / 100000) 0 = .ok s ∧
      ¬ (|s.x_next - s.x_prev| ≥ 3 ∧ |f_value realMath s.x_next| ≥ 1 / 100000) ∧
      (|s.x_next - s.x_prev| < 3 ∨ |f_value realMath s.x_next| < 1 / 100000) :=
  ⟨_, newton_final_seven_coarse (1 / 100000) 0,
    (newton_stops_when_one_criterion_met realMath 0 7 3 (1 / 100000) 0 _
      (newton_final_seven_coarse (1 / 100000) 0)).2.2.1,
    (newton_stops_when_one_criterion_met realMath 0 7 3 (1 / 100000) 0 _
      (newton_final_seven_coarse (1 / 100000) 0)).2.2.2.1⟩

/-- C1 as stated fails: from `x0 = 7` with `eps1 = 3` and `eps2 = 1e-5`, both positive,
`newton_method` returns the root `x_next` of a final state in which `|f(x_next)| < eps2`
does not hold. -/
theorem newton_returns_with_large_residual :
    ∃ (s : NewtonState ℝ) (r : NewtonResult ℝ),
      newton_final realMath 0 7 3 (1 / 100000) 0 = .ok s ∧
      newton_method realMath 0 7 3 (1 / 100000) 0 = .ok r ∧ r.root = s.x_next ∧
      (0 : ℝ) < 3 ∧ (0 : ℝ) < 1 / 100000 ∧
      ¬ (|s.x_next - s.x_prev| < 3 ∧ |f_value realMath s.x_next| < 1 / 100000) := by
  refine ⟨_, _, newton_final_seven_coarse (1 / 100000) 0,
    newton_method_of_final realMath 0 7 3 (1 / 100000) 0 _
      (newton_final_seven_coarse (1 / 100000) 0), rfl, by norm_num, by norm_num, ?_⟩
  rintro ⟨-, h⟩
  obtain ⟨-, -, hge⟩ := in_basin_first_iterate 0
  simp only at h
  rw [abs_of_nonneg (by linarith)] at h
  linarith

/-! ## The scan loop -/

theorem initial_guess_eq (M : CMath α) (x x2 prev_f : α) (c : ℤ) :
    initial_guess M x x2 prev_f c
      = (if prev_f * f_double_prime_value M x > 0 then x else x2, int_wrap (c + 1)) := rfl

theorem handle_bracket_eq (M : CMath α) (nfuel : ℕ) (eps1 eps2 x x2 prev_f : α) (c : ℤ) :
    handle_bracket M nfuel eps1 eps2 x x2 prev_f c
      = (newton_method M nfuel (initial_guess M x x2 prev_f c).1 eps1 eps2
          (int_wrap (c + 1))).map
          fun r => (report_of M (initial_guess M x x2 prev_f c).1 r,
            int_wrap (r.calc_count + 1)) := rfl

theorem scan_body_bracket (M : CMath α) (nfuel : ℕ) (h b eps1 eps2 : α) (s : ScanState α)
    (hb : s.prev_f * f_value M (min (s.x + h) b) ≤ 0) :
    scan_body M nfuel h b eps1 eps2 s
      = (newton_method M nfuel
          (initial_guess M s.x (min (s.x + h) b) s.prev_f (int_wrap (s.calc_count + 1))).1
          eps1 eps2 (int_wrap (s.calc_count + 2))).map
          (after_solve M h (min (s.x + h) b)
            (initial_guess M s.x (min (s.x + h) b) s.prev_f (int_wrap (s.calc_count + 1))).1 s) := by
  have hb' : s.prev_f * (f M (min (s.x + h) b) s.calc_count).1 ≤ 0 := hb
  unfold scan_body
  dsimp only
  rw [if_pos hb', handle_bracket_eq]
  have hc : int_wrap (int_wrap (s.calc_count + 1) + 1) = int_wrap (s.calc_count + 2) := by
    simp only [int_wrap]
    omega
  simp only [f_snd, hc]
  cases newton_method M nfuel
    (initial_guess M s.x (min (s.x + h) b) s.prev_f (int_wrap (s.calc_count + 1))).1 eps1 eps2
    (int_wrap (s.calc_count + 2)) with
  | error e => rfl
  | ok r => rfl

theorem scan_body_skip (M : CMath α) (nfuel : ℕ) (h b eps1 eps2 : α) (s : ScanState α)
    (hb : ¬ s.prev_f * f_value M (min (s.x + h) b) ≤ 0) :
    scan_body M nfuel h b eps1 eps2 s = .ok (after_skip M h (min (s.x + h) b) s) := by
  have hb' : ¬ s.prev_f * (f M (min (s.x + h) b) s.calc_count).1 ≤ 0 := hb
  unfold scan_body
  dsimp only
  rw [if_neg hb']
  rfl

theorem scan_body_next (M : CMath α) (nfuel : ℕ) (h b eps1 eps2 : α) (s t : ScanState α)
    (ht : scan_body M nfuel h b eps1 eps2 s = .ok t) :
    t.x = s.x + h ∧ t.prev_f = f_value M (min (s.x + h) b) := by
  by_cases hb : s.prev_f * f_value M (min (s.x + h) b) ≤ 0
  · rw [scan_body_bracket M nfuel h b eps1 eps2 s hb] at ht
    cases hn : newton_method M nfuel
      (initial_guess M s.x (min (s.x + h) b) s.prev_f (int_wrap (s.calc_count + 1))).1 eps1 eps2
      (int_wrap (s.calc_count + 2)) with
    | error e => simp [hn, Except.map] at ht
    | ok r =>
      simp only [hn, Except.map, Except.ok.injEq] at ht
      subst ht
      exact ⟨rfl, rfl⟩
  · rw [scan_body_skip M nfuel h b eps1 eps2 s hb] at ht
    simp only [Except.ok.injEq] at ht
    subst ht
    exact ⟨rfl, rfl⟩

theorem scan_after_succ (M : CMath α) (nfuel : ℕ) (h b eps1 eps2 : α) (k : ℕ) :
    ∀ s : ScanState α, scan_after M nfuel h b eps1 eps2 (k + 1) s
      = (scan_after M nfuel h b eps1 eps2 k s).bind (scan_body M nfuel h b eps1 eps2) := by
  induction k with
  | zero =>
    intro s
    cases hs : scan_body M nfuel h b eps1 eps2 s <;> simp [scan_after, Except.bind, hs]
  | succ k ih =>
    intro s
    rw [scan_after]
    cases hs : scan_body M nfuel h b eps1 eps2 s with
    | error e => simp [scan_after, hs, Except.bind]
    | ok u =>
      have h1 : scan_after M nfuel h b eps1 eps2 (k + 1) s
          = scan_after M nfuel h b eps1 eps2 k u := by
        rw [scan_after, hs]
        rfl
      rw [h1]
      exact ih u

/-- After `k` iterations the left endpoint has moved `k` steps, and while it is still
inside the interval `prev_f` is the value of `f` at it. -/
theorem scan_after_state (M : CMath α) (nfuel : ℕ) (h b eps1 eps2 : α) (k : ℕ) :
    ∀ s t : ScanState α, s.prev_f = f_value M s.x →
      scan_after M nfuel h b eps1 eps2 k s = .ok t →
      t.x = s.x + k * h ∧ (t.x ≤ b → t.prev_f = f_value M t.x) := by
  induction k with
  | zero =>
    intro s t hs ht
    simp only [scan_after, Except.ok.injEq] at ht
    subst ht
    simp [hs]
  | succ k ih =>
    intro s t hs ht
    rw [scan_after_succ] at ht
    cases hu : scan_after M nfuel h b eps1 eps2 k s with
    | error e => simp [hu, Except.bind] at ht
    | ok u =>
      rw [hu] at ht
      obtain ⟨hux, -⟩ := ih s u hs hu
      obtain ⟨htx, htf⟩ := scan_body_next M nfuel h b eps1 eps2 u t ht
      refine ⟨?_, fun hle => ?_⟩
      · rw [htx, hux]
        push_cast
        ring
      · rw [htf, htx, min_eq_left (htx ▸ hle)]

theorem scan_init_state (M : CMath α) (a : α) (c : ℤ) :
    scan_init M a c
      = { x := a, prev_f := f_value M a, calc_count := int_wrap (c + 1), out := [] } :=
  rfl

/-- The loop with enough fuel is `j` executions of its body when the condition `x <= b`
holds before each of them and fails after the last. -/
theorem scan_loop_eq_after (M : CMath α) (nfuel : ℕ) (h b eps1 eps2 : α) (j : ℕ) :
    ∀ (fuel : ℕ) (s : ScanState α), j ≤ fuel → (∀ i : ℕ, i < j → s.x + i * h ≤ b) →
      b < s.x + j * h →
      scan_loop M nfuel h b eps1 eps2 fuel s = scan_after M nfuel h b eps1 eps2 j s := by
  induction j with
  | zero =>
    intro fuel s _ _ hlast
    have hg : ¬ s.x ≤ b := by
      simp only [Nat.cast_zero, zero_mul, add_zero] at hlast
      exact not_le.mpr hlast
    cases fuel <;> simp [scan_loop, scan_after, hg]
  | succ j ih =>
    intro fuel s hfuel hpre hlast
    obtain ⟨fuel, rfl⟩ : ∃ m, fuel = m + 1 := ⟨fuel - 1, by omega⟩
    have hg : s.x ≤ b := by
      have := hpre 0 (Nat.succ_pos j)
      simpa using this
    simp only [scan_loop, scan_after, if_pos hg]
    cases hu : scan_body M nfuel h b eps1 eps2 s with
    | error e => rfl
    | ok u =>
      have hux := (scan_body_next M nfuel h b eps1 eps2 s u hu).1
      have key := ih fuel u (by omega)
        (fun i hi => by
          have := hpre (i + 1) (by omega)
          rw [hux]
          push_cast at this
          linarith)
        (by
          rw [hux]
          push_cast at hlast
          linarith)
      simpa [Except.bind] using key

theorem scan_after_one (M : CMath α) (nfuel : ℕ) (h b eps1 eps2 : α) (s : ScanState α) :
    scan_after M nfuel h b eps1 eps2 1 s = scan_body M nfuel h b eps1 eps2 s := by
  cases hs : scan_body M nfuel h b eps1 eps2 s <;> simp [scan_after, Except.bind, hs]

theorem f_value_pos_of_five_le (x : ℝ) (hx : 5 ≤ x) : 0 < f_value realMath x := by
  have hp := two_rpow_neg_pos x
  rw [f_value_real]
  nlinarith

/-- C2: in every iteration of the scan loop (the state `s` reached after `k` iterations
from the initial state, with `x <= b`), the cached `prev_f` is `f(x)`; if
`f(x) * f(x2) <= 0` the iteration is a Newton solve from the selected starting point
followed by its report, and otherwise it evaluates `f(x2)` only and reports nothing. -/
theorem solve_started_iff_bracket (M : CMath α) (nfuel : ℕ) (h a b eps1 eps2 : α) (c0 : ℤ)
    (k : ℕ) (s : ScanState α)
    (hk : scan_after M nfuel h b eps1 eps2 k (scan_init M a c0) = .ok s) (hx : s.x ≤ b) :
    s.prev_f = f_value M s.x ∧
    (f_value M s.x * f_value M (min (s.x + h) b) ≤ 0 →
      scan_body M nfuel h b eps1 eps2 s
        = (newton_method M nfuel
            (initial_guess M s.x (min (s.x + h) b) (f_value M s.x) (int_wrap (s.calc_count + 1))).1
            eps1 eps2 (int_wrap (s.calc_count + 2))).map
            (after_solve M h (min (s.x + h) b)
              (initial_guess M s.x (min (s.x + h) b) (f_value M s.x)
                (int_wrap (s.calc_count + 1))).1 s)) ∧
    (¬ f_value M s.x * f_value M (min (s.x + h) b) ≤ 0 →
      scan_body M nfuel h b eps1 eps2 s = .ok (after_skip M h (min (s.x + h) b) s)) := by
  have hpf : s.prev_f = f_value M s.x :=
    (scan_after_state M nfuel h b eps1 eps2 k (scan_init M a c0) s rfl hk).2 hx
  refine ⟨hpf, fun hb => ?_, fun hb => ?_⟩
  · rw [← hpf] at hb ⊢
    exact scan_body_bracket M nfuel h b eps1 eps2 s hb
  · rw [← hpf] at hb
    exact scan_body_skip M nfuel h b eps1 eps2 s hb

/-- C2 witness: the second iteration of the scan of `[7, 20]` in steps of `7`. -/
theorem solve_started_iff_bracket_witness :
    scan_after realMath 0 7 20 1 1 1 (scan_init realMath 7 0)
      = .ok (after_skip realMath 7 14 (scan_init realMath 7 0)) ∧
    (after_skip realMath 7 14 (scan_init realMath 7 0)).prev_f = f_value realMath 14 := by
  have h14 : min ((scan_init realMath 7 0).x + 7) (20 : ℝ) = 14 := by
    simp only [scan_init_state]
    norm_num
  have hs : scan_after realMath 0 7 20 1 1 1 (scan_init realMath 7 0)
      = .ok (after_skip realMath 7 14 (scan_init realMath 7 0)) := by
    rw [scan_after_one, ← h14]
    apply scan_body_skip
    rw [h14]
    have h1 := f_value_pos_of_five_le 7 (by norm_num)
    have h2 := f_value_pos_of_five_le 14 (by norm_num)
    exact not_le.mpr (mul_pos h1 h2)
  refine ⟨hs, ?_⟩
  have hx : (after_skip realMath 7 14 (scan_init realMath 7 0)).x ≤ 20 := by
    simp only [after_skip, scan_init_state]
    norm_num
  have hw := (solve_started_iff_bracket realMath 0 7 7 20 1 1 0 1 _ hs hx).1
  rw [hw]
  simp only [after_skip, scan_init_state]
  norm_num

theorem f_value_zero : f_value realMath 0 = -9 := by
  rw [f_value_real]
  norm_num

theorem f_double_prime_value_pos (x : ℝ) : 0 < f_double_prime_value realMath x := by
  have hp := two_rpow_neg_pos x
  have hL := sq_nonneg (Real.log 2)
  rw [f_double_prime_value_real]
  have := mul_nonneg hp.le hL
  linarith

theorem initial_guess_zero_seven (c : ℤ) :
    initial_guess realMath 0 7 (f_value realMath 0) c = (7, int_wrap (c + 1)) := by
  have hpos := f_double_prime_value_pos 0
  have hneg : ¬ f_value realMath 0 * f_double_prime_value realMath 0 > 0 := by
    rw [f_value_zero]
    have : -9 * f_double_prime_value realMath 0 < 0 := by linarith
    exact not_lt.mpr this.le
  rw [initial_guess_eq, if_neg hneg]

/-- C7: in the scenario `a = 0`, `b = 10`, `h = 7`: `f(0) = -9` and
`f(7) = 14.5078125`; the loop is entered with `[0, 7]`, then with `[7, 10]`, and is left
after that; `f(0) * f(7) <= 0` while `f(7) * f(10) > 0`; the Fourier test at `0` selects
`x0 = 7`; and the whole run is the Newton solve from `7` followed by its single report,
whose accuracy is `|root - 7|`. -/
theorem scenario_zero_to_ten (sfuel nfuel : ℕ) (eps1 eps2 : ℝ) (hs : 2 ≤ sfuel) :
    f_value realMath 0 = -9 ∧ f_value realMath 7 = 14.5078125 ∧
    ((scan_init realMath 0 0).x = 0 ∧ min ((scan_init realMath 0 0).x + 7) (10 : ℝ) = 7) ∧
    (∀ s1 : ScanState ℝ,
      scan_after realMath nfuel 7 10 eps1 eps2 1 (scan_init realMath 0 0) = .ok s1 →
      s1.x = 7 ∧ s1.x ≤ 10 ∧ min (s1.x + 7) 10 = 10) ∧
    (∀ s2 : ScanState ℝ,
      scan_after realMath nfuel 7 10 eps1 eps2 2 (scan_init realMath 0 0) = .ok s2 →
      ¬ s2.x ≤ 10) ∧
    f_value realMath 0 * f_value realMath 7 ≤ 0 ∧
    ¬ f_value realMath 7 * f_value realMath 10 ≤ 0 ∧
    initial_guess realMath 0 7 (f_value realMath 0) 2 = (7, 3) ∧
    main realMath sfuel nfuel 0 10 eps1 eps2
      = (newton_method realMath nfuel 7 eps1 eps2 3).map (fun r =>
          { x := 14, prev_f := f_value realMath 10, calc_count := int_wrap (r.calc_count + 2),
            out := [report_of realMath 7 r] }) ∧
    (∀ r : NewtonResult ℝ, (report_of realMath 7 r).accuracy = |r.root - 7|) := by
  have hx : ∀ (k : ℕ) (s : ScanState ℝ),
      scan_after realMath nfuel 7 10 eps1 eps2 k (scan_init realMath 0 0) = .ok s →
      s.x = 0 + k * 7 :=
    fun k s hk => (scan_after_state realMath nfuel 7 10 eps1 eps2 k _ s rfl hk).1
  have h7 : f_value realMath 7 = 14.5078125 := by
    rw [f_value_seven]
    norm_num
  have h10 := f_value_pos_of_five_le 10 (by norm_num)
  have hmin0 : min ((scan_init realMath 0 0).x + 7) (10 : ℝ) = 7 := by
    simp only [scan_init_state]
    norm_num
  have hb0 : f_value realMath 0 * f_value realMath 7 ≤ 0 := by
    rw [f_value_zero, h7]
    norm_num
  have hb1 : ¬ f_value realMath 7 * f_value realMath 10 ≤ 0 := by
    have h7pos : 0 < f_value realMath 7 := by
      rw [h7]
      norm_num
    exact not_le.mpr (mul_pos h7pos h10)
  refine ⟨f_value_zero, h7, ⟨rfl, hmin0⟩, fun s1 h1 => ?_, fun s2 h2 => ?_, hb0, hb1,
    initial_guess_zero_seven 2, ?_, fun r => rfl⟩
  · have := hx 1 s1 h1
    rw [this]
    norm_num
  · have := hx 2 s2 h2
    rw [this]
    norm_num
  · have hloop : main realMath sfuel nfuel 0 10 eps1 eps2
        = scan_after realMath nfuel 7 10 eps1 eps2 2 (scan_init realMath 0 0) := by
      unfold main scan
      apply scan_loop_eq_after realMath nfuel 7 10 eps1 eps2 2 sfuel _ hs
      · intro i hi
        simp only [scan_init_state]
        interval_cases i <;> norm_num
      · simp only [scan_init_state]
        norm_num
    have hfirst : scan_body realMath nfuel 7 10 eps1 eps2 (scan_init realMath 0 0)
        = (newton_method realMath nfuel 7 eps1 eps2 3).map
            (after_solve realMath 7 7 7 (scan_init realMath 0 0)) := by
      have hb : (scan_init realMath 0 0).prev_f
          * f_value realMath (min ((scan_init realMath 0 0).x + 7) 10) ≤ 0 := by
        rw [hmin0]
        exact hb0
      rw [scan_body_bracket realMath nfuel 7 10 eps1 eps2 _ hb, hmin0]
      have hg : (initial_guess realMath (scan_init realMath 0 0).x 7
          (scan_init realMath 0 0).prev_f (int_wrap ((scan_init realMath 0 0).calc_count + 1))).1
          = 7 := by
        simp only [scan_init_state]
        rw [initial_guess_zero_seven]
      have hc : int_wrap ((scan_init realMath 0 0).calc_count + 2) = 3 := by
        simp [scan_init_state, int_wrap]
      rw [hg, hc]
    have hsecond : ∀ r : NewtonResult ℝ,
        scan_body realMath nfuel 7 10 eps1 eps2
            (after_solve realMath 7 7 7 (scan_init realMath 0 0) r)
          = .ok { x := 14, prev_f := f_value realMath 10, calc_count := int_wrap (r.calc_count + 2),
                  out := [report_of realMath 7 r] } := by
      intro r
      have hmin1 : min ((after_solve realMath 7 7 7 (scan_init realMath 0 0) r).x + 7)
          (10 : ℝ) = 10 := by
        simp only [after_solve, scan_init_state]
        norm_num
      have hb : ¬ (after_solve realMath 7 7 7 (scan_init realMath 0 0) r).prev_f
          * f_value realMath
              (min ((after_solve realMath 7 7 7 (scan_init realMath 0 0) r).x + 7) 10)
          ≤ 0 := by
        rw [hmin1]
        exact hb1
      rw [scan_body_skip realMath nfuel 7 10 eps1 eps2 _ hb, hmin1]
      simp only [after_skip, after_solve, scan_init_state, Except.ok.injEq,
        ScanState.mk.injEq, List.nil_append, and_true, true_and]
      constructor
      · norm_num
      · simp only [int_wrap]
        omega
    rw [hloop, scan_after, hfirst]
    cases newton_method realMath nfuel 7 eps1 eps2 3 with
    | error e => rfl
    | ok r =>
      have := hsecond r
      rw [← scan_after_one] at this
      simpa [Except.map, Except.bind] using this

/-- C7 witness: the scenario with fuel `2` for the scan and tolerances `1e-5`. -/
theorem scenario_zero_to_ten_witness :
    main realMath 2 3 0 10 (1 / 100000) (1 / 100000)
      = (newton_method realMath 3 7 (1 / 100000) (1 / 100000) 3).map (fun r =>
          { x := 14, prev_f := f_value realMath 10, calc_count := int_wrap (r.calc_count + 2),
            out := [report_of realMath 7 r] }) :=
  (scenario_zero_to_ten 2 3 (1 / 100000) (1 / 100000) (by decide)).2.2.2.2.2.2.2.2.1

/-! ## The loop states are the Newton iterates -/

theorem newton_iterate_zero (M : CMath α) (x0 : α) : newton_iterate M x0 0 = x0 := rfl

theorem newton_iterate_succ (M : CMath α) (x0 : α) (k : ℕ) :
    newton_iterate M x0 (k + 1) = newton_map M (newton_iterate M x0 k) :=
  Function.iterate_succ_apply' (newton_map M) k x0

theorem newton_continue_iterate (M : CMath α) (x0 eps1 eps2 : α) (c : ℤ) (k : ℕ) :
    newton_continue eps1 eps2 (iterate_state M x0 c k) ↔ continue_at M x0 eps1 eps2 k :=
  Iff.rfl

theorem newton_init_iterate (M : CMath α) (x0 : α) (c : ℤ)
    (hd : f_prime_value M x0 ≠ 0) :
    newton_init M x0 c = .ok (iterate_state M x0 c 1) := by
  rw [newton_init_ok M x0 c hd]
  simp only [iterate_state, newton_iterate_succ, newton_iterate_zero, Except.ok.injEq,
    NewtonState.mk.injEq, true_and, and_true]
  refine ⟨rfl, rfl, ?_⟩
  norm_num

theorem newton_step_iterate (M : CMath α) (x0 : α) (c : ℤ) (k : ℕ) (hk : 1 ≤ k)
    (hd : f_prime_value M (newton_iterate M x0 k) ≠ 0) :
    newton_step M (iterate_state M x0 c k) = .ok (iterate_state M x0 c (k + 1)) := by
  rw [newton_step_ok M (iterate_state M x0 c k) hd]
  obtain ⟨j, rfl⟩ : ∃ j, k = j + 1 := ⟨k - 1, by omega⟩
  simp only [iterate_state, Except.ok.injEq, NewtonState.mk.injEq, true_and,
    Nat.add_sub_cancel]
  refine ⟨rfl, ?_, ?_, ?_⟩
  · rw [newton_iterate_succ M x0 (j + 1)]
    rfl
  · rw [newton_iterate_succ M x0 (j + 1)]
    rfl
  · push_cast
    simp only [int_wrap]
    omega

/-- A loop run that returns from the state of the `k`-th iterate stops at the first
iterate `n >= k` at which the loop condition fails; every derivative it divided by is
nonzero. -/
theorem newton_loop_iterate (M : CMath α) (x0 eps1 eps2 : α) (c : ℤ) (fuel : ℕ) :
    ∀ (k : ℕ) (t : NewtonState α), 1 ≤ k →
      newton_loop M eps1 eps2 fuel (iterate_state M x0 c k) = .ok t →
      ∃ n : ℕ, k ≤ n ∧ n ≤ k + fuel ∧ t = iterate_state M x0 c n ∧
        ¬ continue_at M x0 eps1 eps2 n ∧
        ∀ j : ℕ, k ≤ j → j < n →
          continue_at M x0 eps1 eps2 j ∧ f_prime_value M (newton_iterate M x0 j) ≠ 0 := by
  induction fuel with
  | zero =>
    intro k t _ ht
    simp only [newton_loop] at ht
    split_ifs at ht with hc
    simp only [Except.ok.injEq] at ht
    exact ⟨k, le_rfl, le_rfl, ht.symm, hc, fun j h1 h2 => absurd h1 (by omega)⟩
  | succ fuel ih =>
    intro k t hk ht
    simp only [newton_loop] at ht
    split_ifs at ht with hc
    · by_cases hd : f_prime_value M (newton_iterate M x0 k) = 0
      · rw [newton_step_undefined M (iterate_state M x0 c k) hd] at ht
        simp [Except.bind] at ht
      · rw [newton_step_iterate M x0 c k hk hd] at ht
        obtain ⟨n, hn1, hn2, hn3, hn4, hn5⟩ := ih (k + 1) t (by omega) ht
        refine ⟨n, by omega, by omega, hn3, hn4, fun j h1 h2 => ?_⟩
        rcases Nat.eq_or_lt_of_le h1 with h | h
        · subst h
          exact ⟨hc, hd⟩
        · exact hn5 j (by omega) h2
    · simp only [Except.ok.injEq] at ht
      exact ⟨k, le_rfl, by omega, ht.symm, hc, fun j h1 h2 => absurd h1 (by omega)⟩

/-- Conversely, with fuel for `n - k` steps the loop run from the `k`-th iterate returns
the state of the first iterate `n` at which the loop condition fails. -/
theorem newton_loop_reaches (M : CMath α) (x0 eps1 eps2 : α) (c : ℤ) (fuel : ℕ) :
    ∀ k n : ℕ, 1 ≤ k → k ≤ n → n ≤ k + fuel → ¬ continue_at M x0 eps1 eps2 n →
      (∀ j : ℕ, k ≤ j → j < n →
        continue_at M x0 eps1 eps2 j ∧ f_prime_value M (newton_iterate M x0 j) ≠ 0) →
      newton_loop M eps1 eps2 fuel (iterate_state M x0 c k)
        = .ok (iterate_state M x0 c n) := by
  induction fuel with
  | zero =>
    intro k n _ h1 h2 hstop _
    obtain rfl : k = n := by omega
    exact newton_loop_stop M eps1 eps2 0 _ hstop
  | succ fuel ih =>
    intro k n hk h1 h2 hstop hrun
    rcases Nat.eq_or_lt_of_le h1 with h | h
    · subst h
      exact newton_loop_stop M eps1 eps2 _ _ hstop
    · obtain ⟨hc, hd⟩ := hrun k le_rfl h
      have hc' : newton_continue eps1 eps2 (iterate_state M x0 c k) := hc
      simp only [newton_loop, if_pos hc', newton_step_iterate M x0 c k hk hd]
      exact ih (k + 1) n (by omega) h (by omega) hstop
        (fun j h3 h4 => hrun j (by omega) h4)

theorem newton_final_iterate (M : CMath α) (fuel : ℕ) (x0 eps1 eps2 : α) (c : ℤ)
    (t : NewtonState α) (ht : newton_final M fuel x0 eps1 eps2 c = .ok t) :
    ∃ n : ℕ, 1 ≤ n ∧ n ≤ fuel + 1 ∧ t = iterate_state M x0 c n ∧
      ¬ continue_at M x0 eps1 eps2 n ∧
      (∀ j : ℕ, 1 ≤ j → j < n → continue_at M x0 eps1 eps2 j) ∧
      (∀ j : ℕ, j < n → f_prime_value M (newton_iterate M x0 j) ≠ 0) := by
  unfold newton_final at ht
  by_cases hd : f_prime_value M x0 = 0
  · rw [newton_init_undefined M x0 c hd] at ht
    simp [Except.bind] at ht
  · rw [newton_init_iterate M x0 c hd] at ht
    obtain ⟨n, hn1, hn2, hn3, hn4, hn5⟩ :=
      newton_loop_iterate M x0 eps1 eps2 c fuel 1 t le_rfl ht
    refine ⟨n, hn1, by omega, hn3, hn4, fun j h1 h2 => (hn5 j h1 h2).1, fun j h2 => ?_⟩
    rcases Nat.eq_zero_or_pos j with h | h
    · subst h
      exact hd
    · exact (hn5 j h h2).2

theorem newton_final_reaches (M : CMath α) (fuel : ℕ) (x0 eps1 eps2 : α) (c : ℤ) (n : ℕ)
    (hn : 1 ≤ n) (hfuel : n ≤ fuel + 1) (hstop : ¬ continue_at M x0 eps1 eps2 n)
    (hrun : ∀ j : ℕ, 1 ≤ j → j < n → continue_at M x0 eps1 eps2 j)
    (hdef : ∀ j : ℕ, j < n → f_prime_value M (newton_iterate M x0 j) ≠ 0) :
    newton_final M fuel x0 eps1 eps2 c = .ok (iterate_state M x0 c n) := by
  unfold newton_final
  rw [newton_init_iterate M x0 c (hdef 0 (by omega))]
  exact newton_loop_reaches M x0 eps1 eps2 c fuel 1 n le_rfl hn (by omega) hstop
    (fun j h1 h2 => ⟨hrun j h1 h2, hdef j h2⟩)

theorem newton_method_ok (M : CMath α) (fuel : ℕ) (x eps1 eps2 : α) (c : ℤ)
    (r : NewtonResult α) (hr : newton_method M fuel x eps1 eps2 c = .ok r) :
    ∃ s : NewtonState α, newton_final M fuel x eps1 eps2 c = .ok s ∧
      r = { root := s.x_next, n := s.n, convergence := convergence_estimate M s,
            calc_count := s.calc_count } := by
  unfold newton_method at hr
  cases hs : newton_final M fuel x eps1 eps2 c with
  | error e => simp [hs, Except.map] at hr
  | ok s =>
    simp only [hs, Except.map, Except.ok.injEq] at hr
    exact ⟨s, rfl, hr.symm⟩

/-- C11: when `newton_method` returns, the reported `n` is at least `1`, the returned
value is the `n`-th Newton iterate of `x0`, the continue-condition is false at `n` and
true at every `k` with `1 <= k < n`; the derivatives divided by on the way are nonzero. -/
theorem newton_method_returns_first_stopping_iterate (M : CMath α) (fuel : ℕ)
    (x0 eps1 eps2 : α) (c : ℤ) (r : NewtonResult α)
    (hr : newton_method M fuel x0 eps1 eps2 c = .ok r) :
    1 ≤ r.n ∧ r.root = newton_iterate M x0 r.n ∧ ¬ continue_at M x0 eps1 eps2 r.n ∧
    (∀ k : ℕ, 1 ≤ k → k < r.n → continue_at M x0 eps1 eps2 k) ∧
    (∀ k : ℕ, k < r.n → f_prime_value M (newton_iterate M x0 k) ≠ 0) := by
  obtain ⟨s, hs, rfl⟩ := newton_method_ok M fuel x0 eps1 eps2 c r hr
  obtain ⟨n, hn1, -, rfl, hn4, hn5, hn6⟩ := newton_final_iterate M fuel x0 eps1 eps2 c s hs
  exact ⟨hn1, rfl, hn4, hn5, hn6⟩

/-- C11 witness: the run from `x0 = 7` with `eps1 = 3`, `eps2 = 1e-5`, which returns the
first iterate. -/
theorem newton_method_returns_first_stopping_iterate_witness :
    ∃ r : NewtonResult ℝ, newton_method realMath 0 7 3 (1 / 100000) 0 = .ok r ∧
      1 ≤ r.n ∧ r.root = newton_iterate realMath 7 r.n :=
  ⟨_, newton_method_of_final realMath 0 7 3 (1 / 100000) 0 _
      (newton_final_seven_coarse (1 / 100000) 0),
    (newton_method_returns_first_stopping_iterate realMath 0 7 3 (1 / 100000) 0 _
      (newton_method_of_final realMath 0 7 3 (1 / 100000) 0 _
        (newton_final_seven_coarse (1 / 100000) 0))).1,
    (newton_method_returns_first_stopping_iterate realMath 0 7 3 (1 / 100000) 0 _
      (newton_method_of_final realMath 0 7 3 (1 / 100000) 0 _
        (newton_final_seven_coarse (1 / 100000) 0))).2.1⟩

/-! ## Evaluation count and convergence estimate -/

theorem newton_method_count (M : CMath α) (fuel : ℕ) (x0 eps1 eps2 : α) (c : ℤ)
    (r : NewtonResult α) (hr : newton_method M fuel x0 eps1 eps2 c = .ok r) :
    r.calc_count = int_wrap (c + (2 * r.n + 1)) := by
  obtain ⟨s, hs, rfl⟩ := newton_method_ok M fuel x0 eps1 eps2 c r hr
  obtain ⟨n, -, -, rfl, -⟩ := newton_final_iterate M fuel x0 eps1 eps2 c s hs
  rfl

/-- C15, as the code has it: when `newton_method` returns with iteration count `n`, the
`int` counter has been incremented `2 * n + 1` times: it holds `c + 2 * n + 1` reduced to
the 32-bit range, which is exactly `c + 2 * n + 1` as long as that does not exceed
`INT_MAX`; a bracket block of `main` that returns (the `f_double_prime` test, the Newton
solve, the final `f(root)`) has likewise incremented it `2 * n + 3` times, and reports
the resulting value. -/
theorem newton_method_adds_two_n_plus_one (M : CMath α) (fuel : ℕ) (x0 eps1 eps2 : α)
    (c : ℤ) (r : NewtonResult α) (hr : newton_method M fuel x0 eps1 eps2 c = .ok r) :
    r.calc_count = int_wrap (c + (2 * r.n + 1)) ∧
    (-2147483648 ≤ c → c + (2 * r.n + 1) ≤ 2147483647 → r.calc_count = c + (2 * r.n + 1)) ∧
    ∀ (x x2 prev_f : α) (rep : Report α) (c1 : ℤ),
      handle_bracket M fuel eps1 eps2 x x2 prev_f c = .ok (rep, c1) →
      c1 = int_wrap (c + (2 * rep.n + 3)) ∧ rep.calc_count = c1 ∧
      (-2147483648 ≤ c → c + (2 * rep.n + 3) ≤ 2147483647 → c1 = c + (2 * rep.n + 3)) := by
  have hcount := newton_method_count M fuel x0 eps1 eps2 c r hr
  refine ⟨hcount, fun h1 h2 => ?_, fun x x2 prev_f rep c1 hb => ?_⟩
  · rw [hcount]
    exact int_wrap_of_range _ (by omega) h2
  · rw [handle_bracket_eq] at hb
    cases hn : newton_method M fuel (initial_guess M x x2 prev_f c).1 eps1 eps2
        (int_wrap (c + 1)) with
    | error e => simp [hn, Except.map] at hb
    | ok q =>
      have hq := newton_method_count M fuel _ eps1 eps2 (int_wrap (c + 1)) q hn
      simp only [hn, Except.map, Except.ok.injEq, Prod.mk.injEq] at hb
      obtain ⟨hrep, hc1⟩ := hb
      subst hrep
      subst hc1
      have hn' : (report_of M (initial_guess M x x2 prev_f c).1 q).n = q.n := rfl
      have hw : int_wrap (q.calc_count + 1) = int_wrap (c + (2 * (q.n : ℤ) + 3)) := by
        rw [hq]
        simp only [int_wrap]
        omega
      rw [hn']
      refine ⟨hw, rfl, fun h1 h2 => ?_⟩
      rw [hw]
      exact int_wrap_of_range _ (by omega) h2

/-- C15 witness: the run from `x0 = 7` with `eps1 = 3`, which returns after three
evaluations. -/
theorem newton_method_adds_two_n_plus_one_witness :
    ∃ r : NewtonResult ℝ, newton_method realMath 0 7 3 (1 / 100000) 0 = .ok r ∧
      r.calc_count = int_wrap (0 + (2 * r.n + 1)) :=
  ⟨_, newton_method_of_final realMath 0 7 3 (1 / 100000) 0 _
      (newton_final_seven_coarse (1 / 100000) 0),
    (newton_method_adds_two_n_plus_one realMath 0 7 3 (1 / 100000) 0 _
      (newton_method_of_final realMath 0 7 3 (1 / 100000) 0 _
        (newton_final_seven_coarse (1 / 100000) 0))).1⟩

/-- C15 as stated fails: started with the counter at `2147483646`, the run from `x0 = 7`
with `eps1 = 3` returns with `n = 1` and the counter at `-2147483647`, which is not
`2147483646 + (2 * 1 + 1)`. -/
theorem newton_method_count_wraps :
    ∃ r : NewtonResult ℝ, newton_method realMath 0 7 3 (1 / 100000) 2147483646 = .ok r ∧
      r.n = 1 ∧ r.calc_count = -2147483647 ∧
      ¬ r.calc_count = 2147483646 + (2 * (r.n : ℤ) + 1) := by
  refine ⟨_, newton_method_of_final realMath 0 7 3 (1 / 100000) 2147483646 _
    (newton_final_seven_coarse (1 / 100000) 2147483646), rfl, ?_, ?_⟩ <;>
  · simp only [int_wrap]
    decide

theorem convergence_estimate_real (s : NewtonState ℝ) :
    convergence_estimate realMath s
      = if |s.x_prev - s.x_prev_prev| ^ 2 = 0 then none
        else some (|s.x_next - s.x_prev| / |s.x_prev - s.x_prev_prev| ^ 2) := by
  unfold convergence_estimate
  simp only [realMath_pow, Real.rpow_two]
  split_ifs
  · rfl
  · rw [abs_div, abs_of_nonneg (sq_nonneg |s.x_prev - s.x_prev_prev|)]

/-- Two consecutive iterates inside a returning run are different. -/
theorem iterates_differ_before_stop (M : CMath α) (x0 eps1 eps2 : α) (n : ℕ) (hn : 2 ≤ n)
    (hstop : ¬ continue_at M x0 eps1 eps2 n)
    (hrun : ∀ j : ℕ, 1 ≤ j → j < n → continue_at M x0 eps1 eps2 j)
    (hdef : ∀ j : ℕ, j < n → f_prime_value M (newton_iterate M x0 j) ≠ 0) :
    newton_iterate M x0 (n - 1) ≠ newton_iterate M x0 (n - 2) := by
  obtain ⟨m, rfl⟩ : ∃ m, n = m + 2 := ⟨n - 2, by omega⟩
  have hc := hrun (m + 1) (by omega) (by omega)
  simp only [Nat.add_sub_cancel, show m + 2 - 1 = m + 1 by omega] at hc ⊢
  unfold continue_at at hc hstop
  simp only [Nat.add_sub_cancel] at hc
  intro heq
  have hpos : 0 < eps1 ∨ 0 < eps2 := by
    by_contra hcon
    push_neg at hcon
    exact hstop ⟨le_trans hcon.1 (abs_nonneg _), le_trans hcon.2 (abs_nonneg _)⟩
  rcases hpos with h1 | h2
  · have := hc.1
    rw [heq, sub_self, abs_zero] at this
    linarith
  · have hd := hdef m (by omega)
    have hN : newton_iterate M x0 (m + 1)
        = newton_iterate M x0 m
          - f_value M (newton_iterate M x0 m) / f_prime_value M (newton_iterate M x0 m) :=
      newton_iterate_succ M x0 m
    have hq : f_value M (newton_iterate M x0 m)
        / f_prime_value M (newton_iterate M x0 m) = 0 := by
      rw [heq] at hN
      linarith
    have hf : f_value M (newton_iterate M x0 m) = 0 := by
      rcases div_eq_zero_iff.mp hq with h | h
      · exact h
      · exact absurd h hd
    have := hc.2
    rw [heq, hf, abs_zero] at this
    linarith

/-- C14: when `newton_method` returns with `n >= 2`, the stored convergence estimate is
`|x_n - x_(n-1)| / |x_(n-1) - x_(n-2)| ^ 2` on the last three iterates, a quotient with a
nonzero denominator; when it returns with `n = 1`, the loop was left with
`x_prev = x_prev_prev = x0`, the denominator base is `0`, and the estimate is a division
by zero (`none`). -/
theorem convergence_estimate_of_last_three_iterates (fuel : ℕ) (x0 eps1 eps2 : ℝ) (c : ℤ)
    (r : NewtonResult ℝ) (hr : newton_method realMath fuel x0 eps1 eps2 c = .ok r) :
    (2 ≤ r.n →
      |newton_iterate realMath x0 (r.n - 1) - newton_iterate realMath x0 (r.n - 2)| ^ 2 ≠ 0 ∧
      r.convergence = some
        (|newton_iterate realMath x0 r.n - newton_iterate realMath x0 (r.n - 1)|
          / |newton_iterate realMath x0 (r.n - 1) - newton_iterate realMath x0 (r.n - 2)| ^ 2)) ∧
    (r.n = 1 →
      ∃ s : NewtonState ℝ, newton_final realMath fuel x0 eps1 eps2 c = .ok s ∧
        s.x_prev = x0 ∧ s.x_prev_prev = x0 ∧ |s.x_prev - s.x_prev_prev| = 0 ∧
        r.convergence = none) := by
  obtain ⟨s, hs, rfl⟩ := newton_method_ok realMath fuel x0 eps1 eps2 c r hr
  obtain ⟨n, hn1, -, rfl, hn4, hn5, hn6⟩ :=
    newton_final_iterate realMath fuel x0 eps1 eps2 c s hs
  constructor
  · intro h2
    have hne := iterates_differ_before_stop realMath x0 eps1 eps2 n h2 hn4 hn5 hn6
    have hden : |newton_iterate realMath x0 (n - 1) - newton_iterate realMath x0 (n - 2)| ^ 2
        ≠ 0 := pow_ne_zero 2 (abs_ne_zero.mpr (sub_ne_zero.mpr hne))
    refine ⟨hden, ?_⟩
    show convergence_estimate realMath (iterate_state realMath x0 c n) = _
    rw [convergence_estimate_real]
    exact if_neg hden
  · intro h1
    have h1' : n = 1 := h1
    subst h1'
    refine ⟨_, hs, rfl, rfl, ?_, ?_⟩
    · simp [iterate_state]
    · show convergence_estimate realMath (iterate_state realMath x0 c 1) = none
      rw [convergence_estimate_real]
      simp [iterate_state]

/-- C14 witness: the run from `x0 = 7` with `eps1 = 3`, which returns with `n = 1`. -/
theorem convergence_estimate_of_last_three_iterates_witness :
    ∃ r : NewtonResult ℝ, newton_method realMath 0 7 3 (1 / 100000) 0 = .ok r ∧
      (r.n = 1 →
        ∃ s : NewtonState ℝ, newton_final realMath 0 7 3 (1 / 100000) 0 = .ok s ∧
          s.x_prev = 7 ∧ s.x_prev_prev = 7 ∧ |s.x_prev - s.x_prev_prev| = 0 ∧
          r.convergence = none) :=
  ⟨_, newton_method_of_final realMath 0 7 3 (1 / 100000) 0 _
      (newton_final_seven_coarse (1 / 100000) 0),
    (convergence_estimate_of_last_three_iterates 0 7 3 (1 / 100000) 0 _
      (newton_method_of_final realMath 0 7 3 (1 / 100000) 0 _
        (newton_final_seven_coarse (1 / 100000) 0))).2⟩

/-! ## Choice of the starting point -/

/-- C12: in an iteration of the scan loop over the reals (state `s` reached after `k`
iterations, `x <= b`, right endpoint `x2 = min(x + h, b)`), the starting point computed
by the Fourier test is `x` when `f(x) * f_double_prime(x) > 0` and `x2` otherwise; it is
the point handed to `newton_method` when `f(x) * f(x2) <= 0`; and when
`f(x) * f(x2) < 0` it satisfies `f(x0) * f_double_prime(x0) > 0`. -/
theorem fourier_start_selection (nfuel : ℕ) (h a b eps1 eps2 : ℝ) (c0 : ℤ) (k : ℕ)
    (s : ScanState ℝ)
    (hk : scan_after realMath nfuel h b eps1 eps2 k (scan_init realMath a c0) = .ok s)
    (hx : s.x ≤ b) :
    (initial_guess realMath s.x (min (s.x + h) b) s.prev_f (int_wrap (s.calc_count + 1))).1
      = (if f_value realMath s.x * f_double_prime_value realMath s.x > 0 then s.x
         else min (s.x + h) b) ∧
    (f_value realMath s.x * f_value realMath (min (s.x + h) b) ≤ 0 →
      scan_body realMath nfuel h b eps1 eps2 s
        = (newton_method realMath nfuel
            (initial_guess realMath s.x (min (s.x + h) b) s.prev_f (int_wrap (s.calc_count + 1))).1
            eps1 eps2 (int_wrap (s.calc_count + 2))).map
            (after_solve realMath h (min (s.x + h) b)
              (initial_guess realMath s.x (min (s.x + h) b) s.prev_f
                (int_wrap (s.calc_count + 1))).1 s)) ∧
    (f_value realMath s.x * f_value realMath (min (s.x + h) b) < 0 →
      f_value realMath
          (initial_guess realMath s.x (min (s.x + h) b) s.prev_f (int_wrap (s.calc_count + 1))).1
        * f_double_prime_value realMath
          (initial_guess realMath s.x (min (s.x + h) b) s.prev_f (int_wrap (s.calc_count + 1))).1
        > 0) := by
  have hpf : s.prev_f = f_value realMath s.x :=
    (scan_after_state realMath nfuel h b eps1 eps2 k (scan_init realMath a c0) s rfl hk).2 hx
  have hsel : (initial_guess realMath s.x (min (s.x + h) b) s.prev_f (int_wrap (s.calc_count + 1))).1
      = (if f_value realMath s.x * f_double_prime_value realMath s.x > 0 then s.x
         else min (s.x + h) b) := by
    rw [initial_guess_eq, hpf]
  refine ⟨hsel, fun hb => ?_, fun hlt => ?_⟩
  · exact scan_body_bracket realMath nfuel h b eps1 eps2 s (by rw [hpf]; exact hb)
  · rw [hsel]
    have hpp1 := f_double_prime_value_pos s.x
    have hpp2 := f_double_prime_value_pos (min (s.x + h) b)
    by_cases hpos : f_value realMath s.x * f_double_prime_value realMath s.x > 0
    · rw [if_pos hpos]
      exact hpos
    · rw [if_neg hpos]
      have hfx : f_value realMath s.x ≤ 0 := by
        by_contra hcon
        push_neg at hcon
        exact hpos (mul_pos hcon hpp1)
      have hfx2 : 0 < f_value realMath (min (s.x + h) b) := by
        by_contra hcon
        push_neg at hcon
        have := mul_nonneg_of_nonpos_of_nonpos hfx hcon
        linarith
      exact mul_pos hfx2 hpp2

/-- C12 witness: the first iteration of the scan of `[0, 10]` in steps of `7`, where
`f(0) * f(7) < 0` and the point selected is `7`. -/
theorem fourier_start_selection_witness :
    (initial_guess realMath (scan_init realMath 0 0).x
        (min ((scan_init realMath 0 0).x + 7) 10) (scan_init realMath 0 0).prev_f
        (int_wrap ((scan_init realMath 0 0).calc_count + 1))).1
      = (if f_value realMath (scan_init realMath 0 0).x
            * f_double_prime_value realMath (scan_init realMath 0 0).x > 0
         then (scan_init realMath 0 0).x
         else min ((scan_init realMath 0 0).x + 7) 10) :=
  (fourier_start_selection 0 7 0 10 1 1 0 0 (scan_init realMath 0 0) rfl
    (by simp [scan_init_state])).1

/-! ## Convexity of the target function and monotone Newton iterates -/

/-- The graph of `f` lies above each of its tangents. -/
theorem f_value_tangent (x z : ℝ) :
    f_value realMath x + f_prime_value realMath x * (z - x) ≤ f_value realMath z := by
  have hp := two_rpow_neg_pos x
  have hexp := Real.add_one_le_exp (-((z - x) * Real.log 2))
  have h1 : (2 : ℝ) ^ (-x) * (-((z - x) * Real.log 2) + 1)
      ≤ (2 : ℝ) ^ (-x) * Real.exp (-((z - x) * Real.log 2)) :=
    mul_le_mul_of_nonneg_left hexp hp.le
  rw [f_value_real, f_value_real, f_prime_value_real, two_rpow_neg_shift x z]
  nlinarith [sq_nonneg (z - x)]

/-- Where the derivative vanishes, `f` is at most `f(0) = -9`. -/
theorem f_prime_value_ne_zero (x : ℝ) (hf : -9 < f_value realMath x) :
    f_prime_value realMath x ≠ 0 := by
  intro h0
  have ht := f_value_tangent x 0
  rw [h0, f_value_zero] at ht
  linarith

theorem newton_map_mul (x : ℝ) (hd : f_prime_value realMath x ≠ 0) :
    newton_map realMath x * f_prime_value realMath x
      = x * f_prime_value realMath x - f_value realMath x := by
  unfold newton_map
  field_simp

theorem newton_map_mul_ge (x : ℝ) (hd : f_prime_value realMath x ≠ 0) :
    9 ≤ newton_map realMath x * f_prime_value realMath x := by
  have ht := f_value_tangent x 0
  rw [f_value_zero] at ht
  rw [newton_map_mul x hd]
  linarith

theorem f_value_newton_map_nonneg (x : ℝ) (hd : f_prime_value realMath x ≠ 0) :
    0 ≤ f_value realMath (newton_map realMath x) := by
  have ht := f_value_tangent x (newton_map realMath x)
  have hm := newton_map_mul x hd
  have : f_prime_value realMath x * (newton_map realMath x - x)
      = -f_value realMath x := by linarith
  rw [this] at ht
  linarith

/-- A Newton step from a point with `f >= 0` and `f_prime > 0`: it moves left, stays
right of `4`, and `f >= 0`, `f_prime > 0` hold again. -/
theorem newton_step_right (x : ℝ) (hf : 0 ≤ f_value realMath x)
    (hd : 0 < f_prime_value realMath x) :
    newton_map realMath x ≤ x ∧ 0 ≤ f_value realMath (newton_map realMath x) ∧
      0 < f_prime_value realMath (newton_map realMath x) ∧ 4 < newton_map realMath x := by
  have hq : 0 ≤ f_value realMath x / f_prime_value realMath x := div_nonneg hf hd.le
  have hle : newton_map realMath x ≤ x := by
    unfold newton_map
    linarith
  have hfy := f_value_newton_map_nonneg x hd.ne'
  have hge := newton_map_mul_ge x hd.ne'
  have hypos : 0 < newton_map realMath x := by
    by_contra hcon
    push_neg at hcon
    have := mul_nonpos_of_nonpos_of_nonneg hcon hd.le
    linarith
  have hp := two_rpow_neg_pos (newton_map realMath x)
  have hp1 : (2 : ℝ) ^ (-newton_map realMath x) < 1 :=
    Real.rpow_lt_one_of_one_lt_of_neg (by norm_num) (by linarith)
  have hL := log_two_bounds
  have hy4 : 4 < newton_map realMath x := by
    rw [f_value_real] at hfy
    by_contra hcon
    push_neg at hcon
    nlinarith
  refine ⟨hle, hfy, ?_, hy4⟩
  rw [f_prime_value_real]
  have : (2 : ℝ) ^ (-newton_map realMath x) * Real.log 2 ≤ 1 * 0.7 :=
    mul_le_mul hp1.le hL.2.le (by linarith) (by norm_num)
  linarith

/-- A Newton step from a point with `f >= 0` and `f_prime < 0`: it moves right, stays
left of `0`, and `f >= 0`, `f_prime < 0` hold again. -/
theorem newton_step_left (x : ℝ) (hf : 0 ≤ f_value realMath x)
    (hd : f_prime_value realMath x < 0) :
    x ≤ newton_map realMath x ∧ 0 ≤ f_value realMath (newton_map realMath x) ∧
      f_prime_value realMath (newton_map realMath x) < 0 ∧ newton_map realMath x < 0 := by
  have hq : f_value realMath x / f_prime_value realMath x ≤ 0 :=
    div_nonpos_iff.mpr (Or.inl ⟨hf, hd.le⟩)
  have hle : x ≤ newton_map realMath x := by
    unfold newton_map
    linarith
  have hfy := f_value_newton_map_nonneg x hd.ne
  have hge := newton_map_mul_ge x hd.ne
  have hyneg : newton_map realMath x < 0 := by
    by_contra hcon
    push_neg at hcon
    have := mul_nonpos_of_nonneg_of_nonpos hcon hd.le
    linarith
  have hp := two_rpow_neg_pos (newton_map realMath x)
  have hL := log_two_bounds
  refine ⟨hle, hfy, ?_, hyneg⟩
  rw [f_prime_value_real]
  have : 0 < (2 : ℝ) ^ (-newton_map realMath x) * Real.log 2 :=
    mul_pos hp (by linarith)
  linarith

theorem newton_map_ge_root (x r : ℝ) (hd : 0 < f_prime_value realMath x)
    (hr : f_value realMath r ≤ 0) : r ≤ newton_map realMath x := by
  have ht := f_value_tangent x r
  have hm := newton_map_mul x hd.ne'
  by_contra hcon
  push_neg at hcon
  have := mul_lt_mul_of_pos_right hcon hd
  linarith

theorem newton_map_le_root (x r : ℝ) (hd : f_prime_value realMath x < 0)
    (hr : f_value realMath r ≤ 0) : newton_map realMath x ≤ r := by
  have ht := f_value_tangent x r
  have hm := newton_map_mul x hd.ne
  by_contra hcon
  push_neg at hcon
  have := mul_lt_mul_of_neg_right hcon hd
  linarith

theorem iterates_right (x0 : ℝ) (hf : 0 ≤ f_value realMath x0)
    (hd : 0 < f_prime_value realMath x0) (k : ℕ) :
    0 ≤ f_value realMath (newton_iterate realMath x0 k) ∧
      0 < f_prime_value realMath (newton_iterate realMath x0 k) := by
  induction k with
  | zero => exact ⟨hf, hd⟩
  | succ k ih =>
    rw [newton_iterate_succ]
    obtain ⟨-, h1, h2, -⟩ := newton_step_right _ ih.1 ih.2
    exact ⟨h1, h2⟩

theorem iterates_left (x0 : ℝ) (hf : 0 ≤ f_value realMath x0)
    (hd : f_prime_value realMath x0 < 0) (k : ℕ) :
    0 ≤ f_value realMath (newton_iterate realMath x0 k) ∧
      f_prime_value realMath (newton_iterate realMath x0 k) < 0 := by
  induction k with
  | zero => exact ⟨hf, hd⟩
  | succ k ih =>
    rw [newton_iterate_succ]
    obtain ⟨-, h1, h2, -⟩ := newton_step_left _ ih.1 ih.2
    exact ⟨h1, h2⟩

/-! ## Convergence and termination of the real Newton iteration -/

theorem continuous_f_value : Continuous (f_value realMath) := by
  have h2 : Continuous fun y : ℝ => (2 : ℝ) ^ (-y) :=
    continuous_iff_continuousAt.mpr fun x => (hasDerivAt_two_rpow_neg x).continuousAt
  have hf : f_value realMath = fun y : ℝ => 0.5 * y ^ 2 - 10 + (2 : ℝ) ^ (-y) := by
    funext y
    exact f_value_real y
  rw [hf]
  exact ((continuous_const.mul (continuous_pow 2)).sub continuous_const).add h2

theorem continuous_f_prime_value : Continuous (f_prime_value realMath) := by
  have h2 : Continuous fun y : ℝ => (2 : ℝ) ^ (-y) :=
    continuous_iff_continuousAt.mpr fun x => (hasDerivAt_two_rpow_neg x).continuousAt
  have hf : f_prime_value realMath = fun y : ℝ => y - (2 : ℝ) ^ (-y) * Real.log 2 := by
    funext y
    exact f_prime_value_real y
  rw [hf]
  exact continuous_id.sub (h2.mul continuous_const)

theorem continuousAt_newton_map (x : ℝ) (hd : f_prime_value realMath x ≠ 0) :
    ContinuousAt (newton_map realMath) x := by
  have hN : newton_map realMath
      = fun y : ℝ => y - f_value realMath y / f_prime_value realMath y := rfl
  rw [hN]
  exact continuousAt_id.sub
    (continuous_f_value.continuousAt.div continuous_f_prime_value.continuousAt hd)

/-- The limit of a sequence of Newton iterates on which `f >= 0` is a zero of `f`. -/
theorem limit_of_iterates_is_root (x0 r : ℝ)
    (hf : ∀ k : ℕ, 0 ≤ f_value realMath (newton_iterate realMath x0 k))
    (hlim : Filter.Tendsto (fun k : ℕ => newton_iterate realMath x0 k) Filter.atTop
      (nhds r)) :
    f_value realMath r = 0 := by
  have hfr : 0 ≤ f_value realMath r :=
    ge_of_tendsto' ((continuous_f_value.tendsto r).comp hlim) hf
  have hd : f_prime_value realMath r ≠ 0 := f_prime_value_ne_zero r (by linarith)
  have h1 : Filter.Tendsto (fun k : ℕ => newton_iterate realMath x0 (k + 1)) Filter.atTop
      (nhds r) := hlim.comp (Filter.tendsto_add_atTop_nat 1)
  have h2 : Filter.Tendsto (fun k : ℕ => newton_iterate realMath x0 (k + 1)) Filter.atTop
      (nhds (newton_map realMath r)) := by
    have := (continuousAt_newton_map r hd).tendsto.comp hlim
    refine this.congr fun k => ?_
    exact (newton_iterate_succ realMath x0 k).symm
  have heq : newton_map realMath r = r := tendsto_nhds_unique h2 h1
  unfold newton_map at heq
  have hq : f_value realMath r / f_prime_value realMath r = 0 := by linarith
  rcases div_eq_zero_iff.mp hq with h | h
  · exact h
  · exact absurd h hd

theorem iterates_converge_right (x0 : ℝ) (hf : 0 ≤ f_value realMath x0)
    (hd : 0 < f_prime_value realMath x0) :
    ∃ r : ℝ, f_value realMath r = 0 ∧
      Filter.Tendsto (fun k : ℕ => newton_iterate realMath x0 k) Filter.atTop (nhds r) ∧
      ∀ k : ℕ, r ≤ newton_iterate realMath x0 k := by
  have hinv := iterates_right x0 hf hd
  have hanti : Antitone fun k : ℕ => newton_iterate realMath x0 k :=
    antitone_nat_of_succ_le fun k => by
      rw [newton_iterate_succ]
      exact (newton_step_right _ (hinv k).1 (hinv k).2).1
  have hbdd : BddBelow (Set.range fun k : ℕ => newton_iterate realMath x0 k) := by
    refine ⟨0, ?_⟩
    rintro y ⟨k, rfl⟩
    have h1 := (hinv k).2
    have hp := two_rpow_neg_pos (newton_iterate realMath x0 k)
    have hL := log_two_bounds
    rw [f_prime_value_real] at h1
    have : 0 < (2 : ℝ) ^ (-newton_iterate realMath x0 k) * Real.log 2 :=
      mul_pos hp (by linarith)
    simp only
    linarith
  have hlim := tendsto_atTop_ciInf hanti hbdd
  exact ⟨_, limit_of_iterates_is_root x0 _ (fun k => (hinv k).1) hlim, hlim,
    fun k => ciInf_le hbdd k⟩

theorem iterates_converge_left (x0 : ℝ) (hf : 0 ≤ f_value realMath x0)
    (hd : f_prime_value realMath x0 < 0) :
    ∃ r : ℝ, f_value realMath r = 0 ∧
      Filter.Tendsto (fun k : ℕ => newton_iterate realMath x0 k) Filter.atTop (nhds r) ∧
      ∀ k : ℕ, newton_iterate realMath x0 k ≤ r := by
  have hinv := iterates_left x0 hf hd
  have hmono : Monotone fun k : ℕ => newton_iterate realMath x0 k :=
    monotone_nat_of_le_succ fun k => by
      rw [newton_iterate_succ]
      exact (newton_step_left _ (hinv k).1 (hinv k).2).1
  have hbdd : BddAbove (Set.range fun k : ℕ => newton_iterate realMath x0 k) := by
    refine ⟨1, ?_⟩
    rintro y ⟨k, rfl⟩
    have h1 := (hinv k).2
    have hL := log_two_bounds
    rw [f_prime_value_real] at h1
    simp only
    by_contra hcon
    push_neg at hcon
    have hp1 : (2 : ℝ) ^ (-newton_iterate realMath x0 k) ≤ 1 :=
      Real.rpow_le_one_of_one_le_of_nonpos (by norm_num) (by linarith)
    have : (2 : ℝ) ^ (-newton_iterate realMath x0 k) * Real.log 2 ≤ 1 * 0.7 :=
      mul_le_mul hp1 hL.2.le (by linarith) (by norm_num)
    linarith
  have hlim := tendsto_atTop_ciSup hmono hbdd
  exact ⟨_, limit_of_iterates_is_root x0 _ (fun k => (hinv k).1) hlim, hlim,
    fun k => le_ciSup hbdd k⟩

theorem iterates_converge_of_nonneg (x0 : ℝ) (hf : 0 ≤ f_value realMath x0) :
    ∃ r : ℝ, f_value realMath r = 0 ∧
      Filter.Tendsto (fun k : ℕ => newton_iterate realMath x0 k) Filter.atTop (nhds r) := by
  rcases lt_trichotomy (f_prime_value realMath x0) 0 with h | h | h
  · obtain ⟨r, h1, h2, -⟩ := iterates_converge_left x0 hf h
    exact ⟨r, h1, h2⟩
  · exact absurd h (f_prime_value_ne_zero x0 (by linarith))
  · obtain ⟨r, h1, h2, -⟩ := iterates_converge_right x0 hf h
    exact ⟨r, h1, h2⟩

theorem newton_iterate_shift (M : CMath α) (x0 : α) (k : ℕ) :
    newton_iterate M x0 (k + 1) = newton_iterate M (newton_map M x0) k :=
  Function.iterate_succ_apply (newton_map M) k x0

/-- From a start with nonzero derivative every later derivative is nonzero as well, and
`f >= 0` from the first iterate on. -/
theorem iterates_defined (x0 : ℝ) (hd : f_prime_value realMath x0 ≠ 0) (k : ℕ) :
    f_prime_value realMath (newton_iterate realMath x0 k) ≠ 0 ∧
      0 ≤ f_value realMath (newton_iterate realMath x0 (k + 1)) := by
  induction k with
  | zero =>
    exact ⟨hd, by rw [newton_iterate_succ]; exact f_value_newton_map_nonneg _ hd⟩
  | succ k ih =>
    have h1 : f_prime_value realMath (newton_iterate realMath x0 (k + 1)) ≠ 0 :=
      f_prime_value_ne_zero _ (by linarith [ih.2])
    exact ⟨h1, by rw [newton_iterate_succ]; exact f_value_newton_map_nonneg _ h1⟩

theorem iterates_converge (x0 : ℝ) (hd : f_prime_value realMath x0 ≠ 0) :
    ∃ r : ℝ, f_value realMath r = 0 ∧
      Filter.Tendsto (fun k : ℕ => newton_iterate realMath x0 k) Filter.atTop (nhds r) := by
  obtain ⟨r, hr, hlim⟩ := iterates_converge_of_nonneg (newton_map realMath x0)
    (f_value_newton_map_nonneg x0 hd)
  refine ⟨r, hr, ?_⟩
  rw [← Filter.tendsto_add_atTop_iff_nat 1]
  exact hlim.congr fun k => (newton_iterate_shift realMath x0 k).symm

/-- With `eps1 > 0` the loop condition fails at some iterate. -/
theorem exists_stop (x0 eps1 eps2 : ℝ) (hd : f_prime_value realMath x0 ≠ 0)
    (heps : 0 < eps1) : ∃ n : ℕ, 1 ≤ n ∧ ¬ continue_at realMath x0 eps1 eps2 n := by
  obtain ⟨r, -, hlim⟩ := iterates_converge x0 hd
  have h1 : Filter.Tendsto (fun k : ℕ => newton_iterate realMath x0 (k + 1)) Filter.atTop
      (nhds r) := hlim.comp (Filter.tendsto_add_atTop_nat 1)
  have h2 : Filter.Tendsto
      (fun k : ℕ => |newton_iterate realMath x0 (k + 1) - newton_iterate realMath x0 k|)
      Filter.atTop (nhds 0) := by
    have := (h1.sub hlim).abs
    simpa using this
  obtain ⟨k, hk⟩ := (h2.eventually (Iio_mem_nhds heps)).exists
  refine ⟨k + 1, by omega, ?_⟩
  unfold continue_at
  rintro ⟨h, -⟩
  simp only [Nat.add_sub_cancel] at h
  exact absurd hk (not_lt.mpr h)

/-- Total correctness of the loop over the reals: from a start with nonzero derivative
and with `eps1 > 0`, `newton_method` returns as soon as the fuel reaches `n - 1`, where
`n` is the first index at which the loop condition fails. -/
theorem newton_method_returns (x0 eps1 eps2 : ℝ) (hd : f_prime_value realMath x0 ≠ 0)
    (heps : 0 < eps1) :
    ∃ n : ℕ, 1 ≤ n ∧ ∀ (fuel : ℕ) (c : ℤ), n ≤ fuel + 1 →
      newton_method realMath fuel x0 eps1 eps2 c = .ok
        { root := newton_iterate realMath x0 n, n := n,
          convergence := convergence_estimate realMath (iterate_state realMath x0 c n),
          calc_count := int_wrap (c + (2 * n + 1)) } := by
  classical
  have hex := exists_stop x0 eps1 eps2 hd heps
  refine ⟨Nat.find hex, (Nat.find_spec hex).1, fun fuel c hfuel => ?_⟩
  have hfin := newton_final_reaches realMath fuel x0 eps1 eps2 c (Nat.find hex)
    (Nat.find_spec hex).1 hfuel (Nat.find_spec hex).2
    (fun j h1 h2 => by
      have := Nat.find_min hex h2
      by_contra hcon
      exact this ⟨h1, hcon⟩)
    (fun j _ => (iterates_defined x0 hd j).1)
  exact newton_method_of_final realMath fuel x0 eps1 eps2 c _ hfin

/-- A run that stops on a zero derivative has met one among the iterates. -/
theorem newton_loop_undefined_iterate (M : CMath α) (x0 eps1 eps2 : α) (c : ℤ) (fuel : ℕ) :
    ∀ k : ℕ, 1 ≤ k →
      newton_loop M eps1 eps2 fuel (iterate_state M x0 c k) = .error .division_by_zero →
      ∃ j : ℕ, f_prime_value M (newton_iterate M x0 j) = 0 := by
  induction fuel with
  | zero =>
    intro k _ ht
    simp only [newton_loop] at ht
    split_ifs at ht
    simp at ht
  | succ fuel ih =>
    intro k hk ht
    simp only [newton_loop] at ht
    split_ifs at ht with hc
    by_cases hd : f_prime_value M (newton_iterate M x0 k) = 0
    · exact ⟨k, hd⟩
    · rw [newton_step_iterate M x0 c k hk hd] at ht
      exact ih (k + 1) (by omega) ht

theorem newton_method_undefined_iterate (M : CMath α) (fuel : ℕ) (x0 eps1 eps2 : α)
    (c : ℤ) (he : newton_method M fuel x0 eps1 eps2 c = .error .division_by_zero) :
    ∃ j : ℕ, f_prime_value M (newton_iterate M x0 j) = 0 := by
  by_cases hd : f_prime_value M x0 = 0
  · exact ⟨0, hd⟩
  · unfold newton_method newton_final at he
    rw [newton_init_iterate M x0 c hd] at he
    cases hl : newton_loop M eps1 eps2 fuel (iterate_state M x0 c 1) with
    | error e =>
      have hl' : (Except.ok (iterate_state M x0 c 1) : Except Halt (NewtonState α)).bind
          (newton_loop M eps1 eps2 fuel) = .error e := hl
      rw [hl'] at he
      simp only [Except.map, Except.error.injEq] at he
      subst he
      exact newton_loop_undefined_iterate M x0 eps1 eps2 c fuel 1 le_rfl hl
    | ok t =>
      have hl' : (Except.ok (iterate_state M x0 c 1) : Except Halt (NewtonState α)).bind
          (newton_loop M eps1 eps2 fuel) = .ok t := hl
      rw [hl'] at he
      simp [Except.map] at he

/-- C13: over the reals, from every `x0` with `f(x0) * f_double_prime(x0) > 0` the Newton
iterates are all defined (`f_prime(x_k)` is never zero, so `newton_method` never stops on
a division by zero), `f(x_k) >= 0` for every `k`, and the sequence is non-increasing when
`f_prime(x0) > 0` and non-decreasing when `f_prime(x0) < 0`; it converges to a zero of
`f` that it never crosses; and for `eps1 > 0` the method returns once its fuel suffices. -/
theorem fourier_start_gives_monotone_iterates (x0 : ℝ)
    (h0 : f_value realMath x0 * f_double_prime_value realMath x0 > 0) :
    (∀ k : ℕ, f_prime_value realMath (newton_iterate realMath x0 k) ≠ 0) ∧
    (∀ k : ℕ, 0 ≤ f_value realMath (newton_iterate realMath x0 k)) ∧
    (0 < f_prime_value realMath x0 →
      (∀ k : ℕ, newton_iterate realMath x0 (k + 1) ≤ newton_iterate realMath x0 k) ∧
      ∃ r : ℝ, f_value realMath r = 0 ∧
        Filter.Tendsto (fun k : ℕ => newton_iterate realMath x0 k) Filter.atTop (nhds r) ∧
        ∀ k : ℕ, r ≤ newton_iterate realMath x0 k) ∧
    (f_prime_value realMath x0 < 0 →
      (∀ k : ℕ, newton_iterate realMath x0 k ≤ newton_iterate realMath x0 (k + 1)) ∧
      ∃ r : ℝ, f_value realMath r = 0 ∧
        Filter.Tendsto (fun k : ℕ => newton_iterate realMath x0 k) Filter.atTop (nhds r) ∧
        ∀ k : ℕ, newton_iterate realMath x0 k ≤ r) ∧
    (∀ (fuel : ℕ) (eps1 eps2 : ℝ) (c : ℤ),
      newton_method realMath fuel x0 eps1 eps2 c ≠ .error .division_by_zero) ∧
    (∀ eps1 eps2 : ℝ, 0 < eps1 → ∃ n : ℕ, 1 ≤ n ∧ ∀ (fuel : ℕ) (c : ℤ), n ≤ fuel + 1 →
      ∃ r : NewtonResult ℝ, newton_method realMath fuel x0 eps1 eps2 c = .ok r ∧
        r.n = n ∧ r.root = newton_iterate realMath x0 n) := by
  have hpp := f_double_prime_value_pos x0
  have hf0 : 0 < f_value realMath x0 := by
    by_contra hcon
    push_neg at hcon
    have := mul_nonpos_of_nonpos_of_nonneg hcon hpp.le
    linarith
  have hd0 : f_prime_value realMath x0 ≠ 0 := f_prime_value_ne_zero x0 (by linarith)
  have hdef : ∀ k : ℕ, f_prime_value realMath (newton_iterate realMath x0 k) ≠ 0 :=
    fun k => (iterates_defined x0 hd0 k).1
  have hnonneg : ∀ k : ℕ, 0 ≤ f_value realMath (newton_iterate realMath x0 k) := by
    intro k
    cases k with
    | zero => exact hf0.le
    | succ k => exact (iterates_defined x0 hd0 k).2
  refine ⟨hdef, hnonneg, fun hd => ⟨fun k => ?_, iterates_converge_right x0 hf0.le hd⟩,
    fun hd => ⟨fun k => ?_, iterates_converge_left x0 hf0.le hd⟩,
    fun fuel eps1 eps2 c herr => ?_, fun eps1 eps2 heps => ?_⟩
  · have hinv := iterates_right x0 hf0.le hd k
    rw [newton_iterate_succ]
    exact (newton_step_right _ hinv.1 hinv.2).1
  · have hinv := iterates_left x0 hf0.le hd k
    rw [newton_iterate_succ]
    exact (newton_step_left _ hinv.1 hinv.2).1
  · obtain ⟨j, hj⟩ := newton_method_undefined_iterate realMath fuel x0 eps1 eps2 c herr
    exact hdef j hj
  · obtain ⟨n, hn, hrun⟩ := newton_method_returns x0 eps1 eps2 hd0 heps
    exact ⟨n, hn, fun fuel c hfuel => ⟨_, hrun fuel c hfuel, rfl, rfl⟩⟩

/-- C13 witness: the starting point `x0 = 7`, where `f` and `f_double_prime` are
positive. -/
theorem fourier_start_gives_monotone_iterates_witness :
    f_value realMath 7 * f_double_prime_value realMath 7 > 0 ∧
    (∀ k : ℕ, f_prime_value realMath (newton_iterate realMath 7 k) ≠ 0) ∧
    (∀ k : ℕ, 0 ≤ f_value realMath (newton_iterate realMath 7 k)) :=
  ⟨mul_pos (f_value_pos_of_five_le 7 (by norm_num)) (f_double_prime_value_pos 7),
    (fourier_start_gives_monotone_iterates 7
      (mul_pos (f_value_pos_of_five_le 7 (by norm_num)) (f_double_prime_value_pos 7))).1,
    (fourier_start_gives_monotone_iterates 7
      (mul_pos (f_value_pos_of_five_le 7 (by norm_num)) (f_double_prime_value_pos 7))).2.1⟩

/-! ## A zero of `f` on an interior scan point -/

theorem machine_scan_body_bracket (add : α → α → α) (M : CMath α) (nfuel : ℕ)
    (h b eps1 eps2 : α) (t : ScanTrace α)
    (hb : t.state.prev_f * f_value M (min (add t.state.x h) b) ≤ 0) :
    machine_scan_body add M nfuel h b eps1 eps2 t
      = (newton_method M nfuel
          (initial_guess M t.state.x (min (add t.state.x h) b) t.state.prev_f
            (int_wrap (t.state.calc_count + 1))).1
          eps1 eps2 (int_wrap (t.state.calc_count + 2))).map
          (machine_after_solve add M h (min (add t.state.x h) b)
            (initial_guess M t.state.x (min (add t.state.x h) b) t.state.prev_f
              (int_wrap (t.state.calc_count + 1))).1 t) := by
  have hb' : t.state.prev_f * (f M (min (add t.state.x h) b) t.state.calc_count).1 ≤ 0 := hb
  unfold machine_scan_body
  dsimp only
  rw [if_pos hb', handle_bracket_eq]
  have hc : int_wrap (int_wrap (t.state.calc_count + 1) + 1)
      = int_wrap (t.state.calc_count + 2) := by
    simp only [int_wrap]
    omega
  simp only [f_snd, hc]
  cases newton_method M nfuel
    (initial_guess M t.state.x (min (add t.state.x h) b) t.state.prev_f
      (int_wrap (t.state.calc_count + 1))).1 eps1 eps2
    (int_wrap (t.state.calc_count + 2)) with
  | error e => rfl
  | ok r => rfl

theorem machine_scan_body_skip (add : α → α → α) (M : CMath α) (nfuel : ℕ)
    (h b eps1 eps2 : α) (t : ScanTrace α)
    (hb : ¬ t.state.prev_f * f_value M (min (add t.state.x h) b) ≤ 0) :
    machine_scan_body add M nfuel h b eps1 eps2 t
      = .ok (machine_after_skip add M h (min (add t.state.x h) b) t) := by
  have hb' : ¬ t.state.prev_f * (f M (min (add t.state.x h) b) t.state.calc_count).1 ≤ 0 :=
    hb
  unfold machine_scan_body
  dsimp only
  rw [if_neg hb']
  rfl

/-- With the exact sum the traced scan body is the scan body, the new point recorded. -/
theorem machine_scan_body_exact (M : CMath α) (nfuel : ℕ) (h b eps1 eps2 : α)
    (t : ScanTrace α) :
    machine_scan_body exact_add M nfuel h b eps1 eps2 t
      = (scan_body M nfuel h b eps1 eps2 t.state).map fun s =>
          { state := s, evals := t.evals ++ [min (t.state.x + h) b] } := by
  unfold machine_scan_body scan_body exact_add
  dsimp only
  split_ifs with hb
  · cases handle_bracket M nfuel eps1 eps2 t.state.x (min (t.state.x + h) b) t.state.prev_f
      (f M (min (t.state.x + h) b) t.state.calc_count).2 <;> rfl
  · rfl

/-- With the exact sum the traced scan, its trace dropped, is the scan. -/
theorem machine_scan_loop_exact (M : CMath α) (nfuel : ℕ) (h b eps1 eps2 : α) (fuel : ℕ) :
    ∀ t : ScanTrace α,
      (machine_scan_loop exact_add M nfuel h b eps1 eps2 fuel t).map ScanTrace.state
        = scan_loop M nfuel h b eps1 eps2 fuel t.state := by
  induction fuel with
  | zero =>
    intro t
    simp only [machine_scan_loop, scan_loop]
    split_ifs <;> rfl
  | succ fuel ih =>
    intro t
    simp only [machine_scan_loop, scan_loop]
    split_ifs with hg
    · rw [machine_scan_body_exact]
      cases hs : scan_body M nfuel h b eps1 eps2 t.state with
      | error e => rfl
      | ok u => simpa [Except.map, Except.bind] using ih _
    · rfl

theorem machine_scan_exact (M : CMath α) (sfuel nfuel : ℕ) (h a b eps1 eps2 : α) (c : ℤ) :
    (machine_scan exact_add M sfuel nfuel h a b eps1 eps2 c).map ScanTrace.state
      = scan M sfuel nfuel h a b eps1 eps2 c :=
  machine_scan_loop_exact M nfuel h b eps1 eps2 sfuel (traced_scan_init M a c)

theorem solve_evaluations_append {β : Type} (out : List (Report β)) (rep : Report β) :
    solve_evaluations (out ++ [rep]) = solve_evaluations out + (2 * (rep.n : ℤ) + 3) := by
  simp [solve_evaluations, List.map_append, List.sum_append]

/-- What one iteration of the traced scan does when it returns: one recorded call of `f`
at the right endpoint, whose value is cached, one step of `x`, and a counter advanced by
that call and by the evaluations of the solve it reports, if any. -/
theorem machine_scan_body_ok (add : α → α → α) (M : CMath α) (nfuel : ℕ)
    (h b eps1 eps2 : α) (t u : ScanTrace α)
    (hu : machine_scan_body add M nfuel h b eps1 eps2 t = .ok u) :
    u.evals = t.evals ++ [min (add t.state.x h) b] ∧ u.state.x = add t.state.x h ∧
      u.state.prev_f = f_value M (min (add t.state.x h) b) ∧
      u.state.calc_count = int_wrap (t.state.calc_count + 1
        + (solve_evaluations u.state.out - solve_evaluations t.state.out)) := by
  by_cases hb : t.state.prev_f * f_value M (min (add t.state.x h) b) ≤ 0
  · rw [machine_scan_body_bracket add M nfuel h b eps1 eps2 t hb] at hu
    cases hn : newton_method M nfuel
      (initial_guess M t.state.x (min (add t.state.x h) b) t.state.prev_f
        (int_wrap (t.state.calc_count + 1))).1 eps1 eps2
      (int_wrap (t.state.calc_count + 2)) with
    | error e => simp [hn, Except.map] at hu
    | ok r =>
      have hcount := newton_method_count M nfuel _ eps1 eps2 _ r hn
      simp only [hn, Except.map, Except.ok.injEq] at hu
      subst hu
      refine ⟨rfl, rfl, rfl, ?_⟩
      simp only [machine_after_solve, solve_evaluations_append, report_of, hcount]
      simp only [int_wrap]
      omega
  · rw [machine_scan_body_skip add M nfuel h b eps1 eps2 t hb] at hu
    simp only [Except.ok.injEq] at hu
    subst hu
    refine ⟨rfl, rfl, rfl, ?_⟩
    simp only [machine_after_skip, sub_self, add_zero]

/-- The invariant of the traced scan loop under a sum that advances every point of
`[a, b]`: the recorded points are strictly increasing up to the last one, which is not
below the others and repeats one of them only if it is `b`; the cached value is `f` at
the last point; `x` is `a` stepped once per body; the counter is the initial one plus the
recorded calls plus the evaluations of the reported solves.  While `x <= b` the last
point is `x` and is above all the others.  The invariant holds at every loop head. -/
theorem machine_scan_upto_invariant (add : α → α → α) (M : CMath α) (nfuel : ℕ)
    (h a b eps1 eps2 : α) (c0 : ℤ) (hadd : ∀ x : α, a ≤ x → x ≤ b → x < add x h)
    (fuel : ℕ) :
    ∀ t t' : ScanTrace α,
      (∃ (l : List α) (e : α), t.evals = l ++ [e] ∧ l.Pairwise (· < ·) ∧
        (∀ p ∈ l, p ≤ e) ∧ (e ∈ l → e = b) ∧ t.state.prev_f = f_value M e ∧
        t.state.x = (fun x => add x h)^[l.length] a ∧
        t.state.calc_count
          = int_wrap (c0 + (l.length + 1) + solve_evaluations t.state.out) ∧
        (t.state.x ≤ b → e = t.state.x ∧ a ≤ e ∧ ∀ p ∈ l, p < e)) →
      machine_scan_upto add M nfuel h b eps1 eps2 fuel t = .ok t' →
      ∃ (l : List α) (e : α), t'.evals = l ++ [e] ∧ l.Pairwise (· < ·) ∧
        (∀ p ∈ l, p ≤ e) ∧ (e ∈ l → e = b) ∧ t'.state.prev_f = f_value M e ∧
        t'.state.x = (fun x => add x h)^[l.length] a ∧
        t'.state.calc_count
          = int_wrap (c0 + (l.length + 1) + solve_evaluations t'.state.out) := by
  induction fuel with
  | zero =>
    intro t t' hinv ht
    simp only [machine_scan_upto, Except.ok.injEq] at ht
    subst ht
    obtain ⟨l, e, h1, h2, h3, h4, h5, h6, h7, -⟩ := hinv
    exact ⟨l, e, h1, h2, h3, h4, h5, h6, h7⟩
  | succ fuel ih =>
    intro t t' hinv ht
    simp only [machine_scan_upto] at ht
    split_ifs at ht with hg
    · cases hu : machine_scan_body add M nfuel h b eps1 eps2 t with
      | error e => simp [hu, Except.bind] at ht
      | ok u =>
        rw [hu] at ht
        obtain ⟨hev, hux, hup, huc⟩ := machine_scan_body_ok add M nfuel h b eps1 eps2 t u hu
        obtain ⟨l, e, h1, h2, h3, h4, h5, h6, h7, h8⟩ := hinv
        obtain ⟨hex, hae, hlt⟩ := h8 hg
        subst hex
        have hstep : t.state.x < add t.state.x h := hadd _ hae hg
        have hx2 : t.state.x ≤ min (add t.state.x h) b := le_min hstep.le hg
        refine ih u t' ⟨l ++ [t.state.x], min (add t.state.x h) b, ?_, ?_, ?_, ?_, hup,
          ?_, ?_, ?_⟩ ht
        · rw [hev, h1]
        · rw [List.pairwise_append]
          refine ⟨h2, List.pairwise_singleton _ _, fun p hp q hq => ?_⟩
          rw [List.mem_singleton] at hq
          rw [hq]
          exact hlt p hp
        · intro p hp
          rw [List.mem_append, List.mem_singleton] at hp
          rcases hp with hp | hp
          · exact le_trans (h3 p hp) hx2
          · rw [hp]
            exact hx2
        · intro hmem
          have hle : min (add t.state.x h) b ≤ t.state.x := by
            rw [List.mem_append, List.mem_singleton] at hmem
            rcases hmem with hp | hp
            · exact h3 _ hp
            · exact hp.le
          rcases min_choice (add t.state.x h) b with hc | hc
          · rw [hc] at hle
            exact absurd hstep (not_lt.mpr hle)
          · exact hc
        · rw [hux, List.length_append, List.length_singleton,
            Function.iterate_succ_apply', ← h6]
        · rw [huc, h7, List.length_append, List.length_singleton]
          push_cast
          simp only [int_wrap]
          omega
        · intro hgu
          rw [hux] at hgu
          have hm : min (add t.state.x h) b = add t.state.x h := min_eq_left hgu
          rw [hux, hm]
          refine ⟨rfl, le_trans hae hstep.le, fun p hp => ?_⟩
          rw [List.mem_append, List.mem_singleton] at hp
          rcases hp with hp | hp
          · exact lt_of_le_of_lt (h3 p hp) hstep
          · rw [hp]
            exact hstep
    · simp only [Except.ok.injEq] at ht
      subst ht
      obtain ⟨l, e, h1, h2, h3, h4, h5, h6, h7, -⟩ := hinv
      exact ⟨l, e, h1, h2, h3, h4, h5, h6, h7⟩

/-- A trace the scan loop returns is the trace at its last loop head. -/
theorem machine_scan_loop_upto (add : α → α → α) (M : CMath α) (nfuel : ℕ)
    (h b eps1 eps2 : α) (fuel : ℕ) :
    ∀ t u : ScanTrace α, machine_scan_loop add M nfuel h b eps1 eps2 fuel t = .ok u →
      machine_scan_upto add M nfuel h b eps1 eps2 fuel t = .ok u := by
  induction fuel with
  | zero =>
    intro t u ht
    simp only [machine_scan_loop] at ht
    split_ifs at ht with hg
    simpa [machine_scan_upto] using ht
  | succ k ih =>
    intro t u ht
    simp only [machine_scan_loop] at ht
    simp only [machine_scan_upto]
    split_ifs at ht with hg
    · rw [if_pos hg]
      cases hb : machine_scan_body add M nfuel h b eps1 eps2 t with
      | error e => simp [hb, Except.bind] at ht
      | ok v =>
        rw [hb] at ht
        exact ih v u ht
    · rw [if_neg hg]
      exact ht

theorem machine_scan_loop_stop (add : α → α → α) (M : CMath α) (nfuel : ℕ)
    (h b eps1 eps2 : α) (fuel : ℕ) (t : ScanTrace α) (hg : ¬ t.state.x ≤ b) :
    machine_scan_loop add M nfuel h b eps1 eps2 fuel t = .ok t := by
  cases fuel <;> simp [machine_scan_loop, hg]

/-- C5, as the code has it: let the machine sum advance every point of `[a, b]`
(`x < x + h` as computed, which exact arithmetic gives for `h > 0`).  At every loop head
of the scan, and so in the trace of a scan that returns, the points passed to `f` by the
scan (line 59, then line 62 once per iteration) are strictly increasing up to the last
one; the last one is not below the others and repeats an earlier one only if it is `b`.
The cached `prev_f` is `f` at the last point, `x` is `a` stepped once per recorded call
after the first, and the counter is the initial one plus one per recorded call plus the
`2 * n + 3` evaluations of every reported solve, so the scan makes no call of `f` beyond
the recorded ones. -/
theorem scan_evaluates_each_point_once (add : α → α → α) (M : CMath α) (nfuel : ℕ)
    (h a b eps1 eps2 : α) (c0 : ℤ) (hadd : ∀ x : α, a ≤ x → x ≤ b → x < add x h) :
    (∀ (k : ℕ) (t : ScanTrace α),
      machine_scan_upto add M nfuel h b eps1 eps2 k (traced_scan_init M a c0) = .ok t →
      ∃ (l : List α) (e : α), t.evals = l ++ [e] ∧ l.Pairwise (· < ·) ∧
        (∀ p ∈ l, p ≤ e) ∧ (e ∈ l → e = b) ∧ t.state.prev_f = f_value M e ∧
        t.state.x = (fun x => add x h)^[l.length] a ∧
        t.state.calc_count
          = int_wrap (c0 + (l.length + 1) + solve_evaluations t.state.out)) ∧
    (∀ (sfuel : ℕ) (t : ScanTrace α),
      machine_scan add M sfuel nfuel h a b eps1 eps2 c0 = .ok t →
      machine_scan_upto add M nfuel h b eps1 eps2 sfuel (traced_scan_init M a c0)
        = .ok t) := by
  refine ⟨fun k t ht => ?_,
    fun sfuel t ht => machine_scan_loop_upto add M nfuel h b eps1 eps2 sfuel _ t ht⟩
  refine machine_scan_upto_invariant add M nfuel h a b eps1 eps2 c0 hadd k
    (traced_scan_init M a c0) t ⟨[], a, rfl, List.Pairwise.nil, ?_, ?_, rfl, rfl, ?_, ?_⟩ ht
  · intro p hp
    exact absurd hp (List.not_mem_nil p)
  · intro hp
    exact absurd hp (List.not_mem_nil a)
  · simp [traced_scan_init, scan_init_state, solve_evaluations]
  · intro _
    refine ⟨rfl, le_refl a, fun p hp => absurd hp (List.not_mem_nil p)⟩

/-- The exact sum with a positive step advances every point. -/
theorem exact_add_advances (h : α) (hh : 0 < h) (x : α) : x < exact_add x h := by
  unfold exact_add
  linarith

theorem f_value_product_pos (x y : ℝ) (hx : 5 ≤ x) (hy : 5 ≤ y) :
    ¬ f_value realMath x * f_value realMath y ≤ 0 :=
  not_le.mpr (mul_pos (f_value_pos_of_five_le x hx) (f_value_pos_of_five_le y hy))

/-- The traced scan of `[7, 10]` in steps of `7` with the exact sum. -/
theorem machine_scan_seven_to_ten :
    machine_scan exact_add realMath 1 0 7 7 10 1 1 0
      = .ok (machine_after_skip exact_add realMath 7 10 (traced_scan_init realMath 7 0)) := by
  have hx : (traced_scan_init realMath 7 0).state.x = 7 := rfl
  have hmin : min (exact_add (traced_scan_init realMath 7 0).state.x 7) (10 : ℝ) = 10 := by
    rw [hx]
    unfold exact_add
    norm_num
  have hb : ¬ (traced_scan_init realMath 7 0).state.prev_f
      * f_value realMath (min (exact_add (traced_scan_init realMath 7 0).state.x 7) 10)
      ≤ 0 := by
    rw [hmin]
    exact f_value_product_pos 7 10 (by norm_num) (by norm_num)
  have hg : (traced_scan_init realMath 7 0).state.x ≤ (10 : ℝ) := by
    rw [hx]
    norm_num
  have hexit : ¬ (machine_after_skip exact_add realMath 7 10
      (traced_scan_init realMath 7 0)).state.x ≤ 10 := by
    simp only [machine_after_skip, hx, exact_add]
    norm_num
  unfold machine_scan
  simp only [machine_scan_loop, if_pos hg]
  rw [machine_scan_body_skip exact_add realMath 0 7 10 1 1 _ hb, hmin]
  simp only [Except.bind, if_neg hexit]

/-- C5 witness: the scan of `[7, 10]` in steps of `7` with the exact sum. -/
theorem scan_evaluates_each_point_once_witness :
    ∃ t : ScanTrace ℝ, machine_scan exact_add realMath 1 0 7 7 10 1 1 0 = .ok t ∧
      ∃ (l : List ℝ) (e : ℝ), t.evals = l ++ [e] ∧ l.Pairwise (· < ·) ∧
        (∀ p ∈ l, p ≤ e) ∧ (e ∈ l → e = 10) ∧ t.state.prev_f = f_value realMath e ∧
        t.state.x = (fun x => exact_add x 7)^[l.length] 7 ∧
        t.state.calc_count
          = int_wrap (0 + (l.length + 1) + solve_evaluations t.state.out) :=
  ⟨_, machine_scan_seven_to_ten,
    (scan_evaluates_each_point_once exact_add realMath 0 7 7 10 1 1 0
      (fun x _ _ => exact_add_advances 7 (by norm_num) x)).1 1 _
      ((scan_evaluates_each_point_once exact_add realMath 0 7 7 10 1 1 0
        (fun x _ _ => exact_add_advances 7 (by norm_num) x)).2 1 _
        machine_scan_seven_to_ten)⟩

/-- C5 as stated fails: on `a = b = 0` the scan evaluates `f(0)` on line 59, enters the
loop (`0 <= 0`) with right endpoint `x2 = min(0 + 7, 0) = 0`, evaluates `f(0)` again and,
no solve being started, ends with `calc_count = 2`; the recorded arguments of `f` are
`0, 0`. -/
theorem scan_evaluates_f_twice_at_zero_width :
    (scan_init realMath 0 0).x ≤ 0 ∧ min ((scan_init realMath 0 0).x + 7) (0 : ℝ) = 0 ∧
    scan realMath 1 0 7 0 0 1 1 0
      = .ok { x := 0 + 7, prev_f := f_value realMath 0, calc_count := 2, out := [] } ∧
    machine_scan exact_add realMath 1 0 7 0 0 1 1 0
      = .ok { state := { x := 0 + 7, prev_f := f_value realMath 0, calc_count := 2,
                         out := [] },
              evals := [0, 0] } := by
  have hmin : min ((scan_init realMath 0 0).x + 7) (0 : ℝ) = 0 := by
    simp only [scan_init_state]
    norm_num
  refine ⟨le_refl _, hmin, ?_, ?_⟩
  · have hb : ¬ (scan_init realMath 0 0).prev_f
        * f_value realMath (min ((scan_init realMath 0 0).x + 7) 0) ≤ 0 := by
      rw [hmin]
      simp only [scan_init_state, f_value_zero]
      norm_num
    have hg : (scan_init realMath 0 0).x ≤ (0 : ℝ) := le_refl _
    have hg2 : ¬ (0 : ℝ) + 7 ≤ 0 := by norm_num
    simp only [scan, scan_loop, if_pos hg]
    rw [scan_body_skip realMath 0 7 0 1 1 _ hb, hmin]
    simp only [Except.bind, after_skip, scan_init_state, if_neg hg2]
    simp [int_wrap]
  · have hx : (traced_scan_init realMath 0 0).state.x = 0 := rfl
    have hmin2 : min (exact_add (traced_scan_init realMath 0 0).state.x 7) (0 : ℝ) = 0 := by
      rw [hx]
      unfold exact_add
      norm_num
    have hb : ¬ (traced_scan_init realMath 0 0).state.prev_f
        * f_value realMath (min (exact_add (traced_scan_init realMath 0 0).state.x 7) 0)
        ≤ 0 := by
      rw [hmin2]
      simp only [traced_scan_init, scan_init_state, f_value_zero]
      norm_num
    have hg : (traced_scan_init realMath 0 0).state.x ≤ (0 : ℝ) := le_of_eq hx
    have hexit : ¬ (machine_after_skip exact_add realMath 7 0
        (traced_scan_init realMath 0 0)).state.x ≤ 0 := by
      simp only [machine_after_skip, hx, exact_add]
      norm_num
    unfold machine_scan
    simp only [machine_scan_loop, if_pos hg]
    rw [machine_scan_body_skip exact_add realMath 0 7 0 1 1 _ hb, hmin2]
    simp only [Except.bind, if_neg hexit, Except.ok.injEq]
    simp [machine_after_skip, traced_scan_init, scan_init_state, exact_add, int_wrap]

/-- C9, as the code has it: take `b = a` and let the machine sum `a + h` exceed `a` (as
the exact sum does for `h > 0`).  Then the scan loop is exactly one execution of its body,
on the sub-interval with `x = x2 = a`; that iteration is a Newton solve from `a` followed
by its report if `f(a) = 0` and reports nothing otherwise, so a run that returns has
printed one report or none, having passed `a` to `f` twice. -/
theorem zero_width_interval_single_iteration (add : α → α → α) (M : CMath α) (nfuel : ℕ)
    (h a eps1 eps2 : α) (c0 : ℤ) (hadd : a < add a h) :
    (∀ sfuel : ℕ, 1 ≤ sfuel →
      machine_scan add M sfuel nfuel h a a eps1 eps2 c0
        = machine_scan_body add M nfuel h a eps1 eps2 (traced_scan_init M a c0)) ∧
    machine_scan add M 0 nfuel h a a eps1 eps2 c0 = .error .scan_fuel ∧
    (traced_scan_init M a c0).state.x = a ∧
    min (add (traced_scan_init M a c0).state.x h) a = a ∧
    (f_value M a = 0 →
      machine_scan_body add M nfuel h a eps1 eps2 (traced_scan_init M a c0)
        = (newton_method M nfuel a eps1 eps2 (int_wrap (c0 + 3))).map
            (machine_after_solve add M h a a (traced_scan_init M a c0))) ∧
    (f_value M a ≠ 0 →
      machine_scan_body add M nfuel h a eps1 eps2 (traced_scan_init M a c0)
        = .ok (machine_after_skip add M h a (traced_scan_init M a c0))) ∧
    (∀ (sfuel : ℕ) (t : ScanTrace α),
      machine_scan add M sfuel nfuel h a a eps1 eps2 c0 = .ok t →
      t.state.out.length ≤ 1 ∧ (t.state.out.length = 1 ↔ f_value M a = 0) ∧
      t.evals = [a, a] ∧ ¬ t.state.x ≤ a) := by
  have hx : (traced_scan_init M a c0).state.x = a := rfl
  have hpf : (traced_scan_init M a c0).state.prev_f = f_value M a := rfl
  have hcc : (traced_scan_init M a c0).state.calc_count = int_wrap (c0 + 1) := rfl
  have hmin : min (add (traced_scan_init M a c0).state.x h) a = a := by
    rw [hx]
    exact min_eq_right hadd.le
  have hg : (traced_scan_init M a c0).state.x ≤ a := le_of_eq hx
  have hone : ∀ sfuel : ℕ, 1 ≤ sfuel →
      machine_scan add M sfuel nfuel h a a eps1 eps2 c0
        = machine_scan_body add M nfuel h a eps1 eps2 (traced_scan_init M a c0) := by
    intro sfuel hs
    obtain ⟨k, rfl⟩ : ∃ k, sfuel = k + 1 := ⟨sfuel - 1, by omega⟩
    unfold machine_scan
    rw [machine_scan_loop, if_pos hg]
    cases hbody : machine_scan_body add M nfuel h a eps1 eps2 (traced_scan_init M a c0) with
    | error e => rfl
    | ok u =>
      have hu := (machine_scan_body_ok add M nfuel h a eps1 eps2 _ u hbody).2.1
      rw [hx] at hu
      have hexit : ¬ u.state.x ≤ a := by
        rw [hu]
        exact not_le.mpr hadd
      simp only [Except.bind]
      exact machine_scan_loop_stop add M nfuel h a eps1 eps2 k u hexit
  have hzero : f_value M a = 0 →
      machine_scan_body add M nfuel h a eps1 eps2 (traced_scan_init M a c0)
        = (newton_method M nfuel a eps1 eps2 (int_wrap (c0 + 3))).map
            (machine_after_solve add M h a a (traced_scan_init M a c0)) := by
    intro h0
    have hb : (traced_scan_init M a c0).state.prev_f
        * f_value M (min (add (traced_scan_init M a c0).state.x h) a) ≤ 0 := by
      rw [hmin, hpf, h0]
      simp
    rw [machine_scan_body_bracket add M nfuel h a eps1 eps2 _ hb, hmin]
    have hgs : (initial_guess M (traced_scan_init M a c0).state.x a
        (traced_scan_init M a c0).state.prev_f
        (int_wrap ((traced_scan_init M a c0).state.calc_count + 1))).1 = a := by
      simp [initial_guess_eq, hx]
    have hc : int_wrap ((traced_scan_init M a c0).state.calc_count + 2)
        = int_wrap (c0 + 3) := by
      rw [hcc]
      simp only [int_wrap]
      omega
    rw [hgs, hc]
  have hnonzero : f_value M a ≠ 0 →
      machine_scan_body add M nfuel h a eps1 eps2 (traced_scan_init M a c0)
        = .ok (machine_after_skip add M h a (traced_scan_init M a c0)) := by
    intro h0
    have hb : ¬ (traced_scan_init M a c0).state.prev_f
        * f_value M (min (add (traced_scan_init M a c0).state.x h) a) ≤ 0 := by
      rw [hmin, hpf, not_le]
      exact mul_self_pos.mpr h0
    rw [machine_scan_body_skip add M nfuel h a eps1 eps2 _ hb, hmin]
  refine ⟨hone, ?_, hx, hmin, hzero, hnonzero, fun sfuel t ht => ?_⟩
  · unfold machine_scan
    rw [machine_scan_loop, if_pos hg]
  · have hfuel : 1 ≤ sfuel := by
      rcases Nat.eq_zero_or_pos sfuel with h0 | hpos
      · subst h0
        unfold machine_scan at ht
        rw [machine_scan_loop, if_pos hg] at ht
        exact absurd ht (by simp)
      · exact hpos
    rw [hone sfuel hfuel] at ht
    have hexit : ¬ add a h ≤ a := not_le.mpr hadd
    by_cases h0 : f_value M a = 0
    · rw [hzero h0] at ht
      cases hn : newton_method M nfuel a eps1 eps2 (int_wrap (c0 + 3)) with
      | error e => simp [hn, Except.map] at ht
      | ok r =>
        simp only [hn, Except.map, Except.ok.injEq] at ht
        subst ht
        simp [machine_after_solve, traced_scan_init, scan_init_state, h0, hexit]
    · rw [hnonzero h0] at ht
      simp only [Except.ok.injEq] at ht
      subst ht
      simp [machine_after_skip, traced_scan_init, scan_init_state, h0, hexit]

/-- C9 witness: the scan of `[0, 0]` in steps of `7` with the exact sum. -/
theorem zero_width_interval_single_iteration_witness :
    (0 : ℝ) < exact_add 0 7 ∧
    ∀ sfuel : ℕ, 1 ≤ sfuel →
      machine_scan exact_add realMath sfuel 5 7 0 0 1 1 0
        = machine_scan_body exact_add realMath 5 7 0 1 1 (traced_scan_init realMath 0 0) :=
  ⟨by unfold exact_add; norm_num,
    (zero_width_interval_single_iteration exact_add realMath 5 7 0 1 1 0
      (by unfold exact_add; norm_num)).1⟩

theorem absorbing_add_large :
    absorbing_add (1152921504606846976 : ℝ) 7 = 1152921504606846976 := by
  unfold absorbing_add
  rw [if_pos]
  rw [abs_of_pos (by norm_num : (0 : ℝ) < 7),
    abs_of_pos (by norm_num : (0 : ℝ) < 1152921504606846976)]
  norm_num

/-- Where the step is absorbed the loop variable stays put and the loop runs out of any
fuel. -/
theorem machine_scan_loop_absorbed (nfuel fuel : ℕ) :
    ∀ t : ScanTrace ℝ, t.state.x = 1152921504606846976 →
      t.state.prev_f = f_value realMath 1152921504606846976 →
      machine_scan_loop absorbing_add realMath nfuel 7 1152921504606846976 1 1 fuel t
        = .error .scan_fuel := by
  induction fuel with
  | zero =>
    intro t hx _
    rw [machine_scan_loop, if_pos (le_of_eq hx)]
  | succ k ih =>
    intro t hx hpf
    have hmin : min (absorbing_add t.state.x 7) (1152921504606846976 : ℝ)
        = 1152921504606846976 := by
      rw [hx, absorbing_add_large, min_self]
    have hb : ¬ t.state.prev_f
        * f_value realMath (min (absorbing_add t.state.x 7) 1152921504606846976) ≤ 0 := by
      rw [hmin, hpf]
      exact f_value_product_pos _ _ (by norm_num) (by norm_num)
    rw [machine_scan_loop, if_pos (le_of_eq hx),
      machine_scan_body_skip absorbing_add realMath nfuel 7 _ 1 1 t hb, hmin]
    simp only [Except.bind]
    apply ih
    · simp only [machine_after_skip, hx, absorbing_add_large]
    · rfl

/-- C9 as stated fails once the sum is the machine one: at `a = b = 2^60` the step `7` is
absorbed (`a + 7` rounds to `a`, as it does in double arithmetic from `2^56` on).  The
first execution of the body, which starts no solve, leaves `x = a <= b`, so the body is
entered again; the loop variable never exceeds `b`, and the scan loop, far from running
its body at most once, exhausts every iteration budget without returning. -/
theorem zero_width_scan_absorbed_step_never_returns :
    (1152921504606846976 : ℝ) = 2 ^ 60 ∧
    absorbing_add (1152921504606846976 : ℝ) 7 = 1152921504606846976 ∧
    (∃ u : ScanTrace ℝ,
      machine_scan_body absorbing_add realMath 0 7 1152921504606846976 1 1
        (traced_scan_init realMath 1152921504606846976 0) = .ok u ∧
      u.state.x ≤ 1152921504606846976 ∧ u.state.out = [] ∧
      u.evals = [1152921504606846976, 1152921504606846976]) ∧
    ∀ sfuel nfuel : ℕ,
      machine_scan absorbing_add realMath sfuel nfuel 7 1152921504606846976
        1152921504606846976 1 1 0 = .error .scan_fuel := by
  refine ⟨by norm_num, absorbing_add_large, ?_, fun sfuel nfuel => ?_⟩
  · have hx : (traced_scan_init realMath 1152921504606846976 0).state.x
        = 1152921504606846976 := rfl
    have hmin : min (absorbing_add
        (traced_scan_init realMath 1152921504606846976 0).state.x 7)
        (1152921504606846976 : ℝ) = 1152921504606846976 := by
      rw [hx, absorbing_add_large, min_self]
    have hb : ¬ (traced_scan_init realMath 1152921504606846976 0).state.prev_f
        * f_value realMath (min (absorbing_add
            (traced_scan_init realMath 1152921504606846976 0).state.x 7)
            1152921504606846976) ≤ 0 := by
      rw [hmin]
      exact f_value_product_pos _ _ (by norm_num) (by norm_num)
    refine ⟨_, machine_scan_body_skip absorbing_add realMath 0 7 _ 1 1 _ hb, ?_, rfl, ?_⟩
    · simp only [machine_after_skip, hx, absorbing_add_large]
      exact le_refl _
    · rw [hmin]
      rfl
  · unfold machine_scan
    exact machine_scan_loop_absorbed nfuel sfuel _ rfl rfl

end RootFinder
